import Mathlib

/-!
Verification of the bush data structure of `src/Bush.cpp` (EquilibriumSolver).

The C++ class `Bush` is shallowly embedded: its mutable fields become a Lean
structure `Bush`, each member function becomes a state-passing Lean function,
`double` costs/flows are modelled by `Int` (the algorithm only adds,
subtracts and compares them), checked accesses (`std::vector::at`) return
`Except String`, and unchecked accesses (`operator[]`) read/write with a
default (`Array.getD` / `Array.setD`).  Unbounded `while` loops take fuel.

Only `Bush.cpp` is in the repository; the declarations it relies on
(`Bush.hpp`, `BushNode`, `BushEdge`, `EdgeVector`, `ABGraph`, `Origin`) are
not.  Definitions for those are marked `Modelled from the spec:` and follow
the specification's description of them.
-/

namespace EqSolver

/-- A directed network arc: endpoints, aggregated flow, cached length
("distance") and its cost function.  Collapses the C++ forward/backward edge
pair (which share this data) into one record. -/
structure NetEdge where
  fromNode : Nat
  toNode : Nat
  flow : Int
  dist : Int
  costFn : Int → Int

instance : Inhabited NetEdge := ⟨⟨0, 0, 0, 0, fun _ => 0⟩⟩

/-- Modelled from the spec: a bush edge carries a reference to its underlying
network arc (`eid`), its current direction's source node, and a bush-local
flow.  Its target node is implicit: it is the node whose in-edge list holds
it. -/
structure BushEdge where
  eid : Nat
  fromNode : Nat
  flow : Int
deriving DecidableEq

instance : Inhabited BushEdge := ⟨⟨0, 0, 0⟩⟩

/-- Modelled from the spec: per-node state attached by a bush — minimum and
maximum distance from the origin and the index (into the node's in-edge
list) of the in-edge realising the minimum distance. -/
structure BushNode where
  minDist : Int
  maxDist : Int
  minPred : Option Nat
deriving DecidableEq

instance : Inhabited BushNode := ⟨⟨0, 0, none⟩⟩

/-- Modelled from the spec: the origin node id and its ordered
(destination, demand) list. -/
structure Origin where
  origin : Nat
  dests : List (Nat × Int)

/-- The mutable state of the C++ `Bush` object together with the shared
network state it mutates: network arcs (`graph`), shared per-node distance
state (`sharedNodes`), per-node in-edge lists (`bush`), the topological
ordering, and the pending direction-change list `changes`
(pairs of (to-node, index into that node's in-edge list)). -/
structure Bush where
  graph : Array NetEdge
  sharedNodes : Array BushNode
  bush : Array (Array BushEdge)
  topologicalOrdering : List Nat
  changes : List (Nat × Nat)
  origin : Origin

/-- Checked element access, the embedding of `std::vector::at`: out-of-range
indices fail with an error instead of reading anything. -/
def atArr (a : Array α) (i : Nat) : Except String α :=
  if h : i < a.size then Except.ok (a.get ⟨i, h⟩) else Except.error "vector index out of range"

/-- Tests whether an `Except` result is the error case. -/
def isErr : Except String α → Bool
  | Except.error _ => true
  | Except.ok _ => false

instance exceptDecEq {ε α : Type} [DecidableEq ε] [DecidableEq α] : DecidableEq (Except ε α) :=
  fun a b =>
    match a, b with
    | Except.ok x, Except.ok y =>
        if h : x = y then isTrue (by rw [h]) else isFalse (fun hc => h (Except.ok.inj hc))
    | Except.error x, Except.error y =>
        if h : x = y then isTrue (by rw [h]) else isFalse (fun hc => h (Except.error.inj hc))
    | Except.ok _, Except.error _ => isFalse (fun hc => Except.noConfusion hc)
    | Except.error _, Except.ok _ => isFalse (fun hc => Except.noConfusion hc)

/-- Modelled from the spec: `BushEdge::length()` reads the underlying network
arc's cached length. -/
def edgeLen (g : Array NetEdge) (e : BushEdge) : Int :=
  (g.getD e.eid default).dist

/-- Modelled from the spec: a node's convergence gap is
(max distance − min distance). -/
def BushNode.getDifference (n : BushNode) : Int := n.maxDist - n.minDist

/-! ### Construction: `Bush::setUpGraph` (Bush.cpp lines 45–86) -/

/-- The diagnostic loop of `setUpGraph` (lines 64–68): for every destination,
look its id up in the distance map (`distanceMap.at`, checked) and report it
when unreachable (`== -1`, embedded as `none`).  Returns the reported ids. -/
def unreachableDiags (dm : Array (Option Nat)) : List (Nat × Int) → Except String (List Nat)
  | [] => Except.ok []
  | d :: ds => do
      let p ← atArr dm d.1
      let rest ← unreachableDiags dm ds
      match p with
      | none => Except.ok (d.1 :: rest)
      | some _ => Except.ok rest

/-- `bush.at(toId).push_back(...)` of line 83: checked access to the in-edge
list of the target node, then append. -/
def addBushEdge (b : Array (Array BushEdge)) (toId : Nat) (e : BushEdge) :
    Except String (Array (Array BushEdge)) :=
  if h : toId < b.size then Except.ok (b.set ⟨toId, h⟩ ((b.get ⟨toId, h⟩).push e))
  else Except.error "vector index out of range"

/-- The edge loop of `setUpGraph` (lines 70–85): for each network arc, read
both endpoint positions from the distance map (checked), skip the arc when
either endpoint is unreachable, and otherwise add it as an in-edge of its
target exactly when the source's position is strictly smaller.  A fresh bush
edge starts with flow 0 (modelled from the spec: flows are loaded only by
`sendInitialFlows`). -/
def setUpEdges (dm : Array (Option Nat)) :
    List (Nat × NetEdge) → Array (Array BushEdge) → Except String (Array (Array BushEdge))
  | [], b => Except.ok b
  | (eid, e) :: rest, b => do
      let toPos ← atArr dm e.toNode
      let fromPos ← atArr dm e.fromNode
      match fromPos, toPos with
      | some fp, some tp =>
          if fp < tp then do
            let b' ← addBushEdge b e.toNode ⟨eid, e.fromNode, 0⟩
            setUpEdges dm rest b'
          else setUpEdges dm rest b
      | _, _ => setUpEdges dm rest b

/-- `Bush::setUpGraph`: the Dijkstra oracle's outputs (per-node position
`dm` and the topological ordering) are parameters, since `ABGraph::dijkstra`
is outside this file.  Emits the unreachable-destination diagnostics, then
builds the in-edge lists over the `numV` nodes. -/
def setUpGraph (graph : Array NetEdge) (o : Origin) (dm : Array (Option Nat)) (numV : Nat) :
    Except String (Array (Array BushEdge) × List Nat) := do
  let diags ← unreachableDiags dm o.dests
  let b ← setUpEdges dm graph.toList.enum (Array.mkArray numV #[])
  Except.ok (b, diags)

/-! ### Tree maintenance: `Bush::buildTrees` (lines 158–173) -/

/-- Modelled from the spec: the scan of `BushNode::updateInDistances` over a
node's in-edges.  Returns `none` on an empty list, otherwise
(min distance, index of the first in-edge realising it, max distance), where
each candidate is (source node's distance + edge length). -/
def scanIn (g : Array NetEdge) (ns : Array BushNode) : List BushEdge → Option (Int × Nat × Int)
  | [] => none
  | e :: es =>
      let nd := ns.getD e.fromNode default
      let mn := nd.minDist + edgeLen g e
      let mx := nd.maxDist + edgeLen g e
      match scanIn g ns es with
      | none => some (mn, 0, mx)
      | some (mn', i', mx') =>
          if mn ≤ mn' then some (mn, 0, max mx mx') else some (mn', i' + 1, max mx mx')

/-- Modelled from the spec: the private `Bush::updateEdges(EdgeVector&,
double, unsigned)` called at line 171 flags, in scan order, every in-edge
whose source's max distance is not strictly below the node's freshly
computed max distance. -/
def flagIdxs (ns : Array BushNode) (vMax : Int) (es : List BushEdge) : List Nat :=
  (es.enum.filter (fun p => ! decide ((ns.getD p.2.fromNode default).maxDist < vMax))).map (·.1)

/-- One iteration of the `buildTrees` loop body (lines 165–172) at node
`id`: recompute the node's distances and min predecessor from its in-edges,
then append the flagged in-edges to the pending-changes list, keyed by the
node. -/
def buildStep (g : Array NetEdge) (bsh : Array (Array BushEdge))
    (st : Array BushNode × List (Nat × Nat)) (id : Nat) : Array BushNode × List (Nat × Nat) :=
  let es := (bsh.getD id #[]).toList
  match scanIn g st.1 es with
  | none => st
  | some (mn, mi, mx) =>
      (st.1.setD id ⟨mn, mx, some mi⟩, st.2 ++ (flagIdxs st.1 mx es).map (fun i => (id, i)))

/-- Modelled from the spec: `BushNode::setDistance(0.0)` at line 161 resets
the origin's min and max distance to 0. -/
def setOriginDist (ns : Array BushNode) (o : Nat) : Array BushNode :=
  let nd := ns.getD o default
  ns.setD o { nd with minDist := 0, maxDist := 0 }

/-- `Bush::buildTrees`: reset the origin's distance, clear the pending
changes, and process every node of the topological ordering but the first
(the origin) in order. -/
def buildTrees (s : Bush) : Bush :=
  let ns0 := setOriginDist s.sharedNodes s.origin.origin
  let r := (s.topologicalOrdering.drop 1).foldl (buildStep s.graph s.bush) (ns0, [])
  { s with sharedNodes := r.1, changes := r.2 }

/-! ### Initial loading: `Bush::sendInitialFlows` (lines 88–104) -/

/-- The inner `while (node != root)` walk of `sendInitialFlows`: follow min
predecessors back to the origin, adding the demand to the bush edge's flow
and the underlying arc's flow and recomputing the arc's cached length from
its cost function.  Fuel bounds the walk; a node without a recorded
predecessor stops it (modelled from the spec: unreachable nodes are excluded
from tree-based computations). -/
def walkFlow (demand : Int) : Nat → Bush → Nat → Bush
  | 0, s, _ => s
  | fuel + 1, s, node =>
      if node = s.origin.origin then s
      else
        match (s.sharedNodes.getD node default).minPred with
        | none => s
        | some idx =>
            let inE := s.bush.getD node #[]
            let e := inE.getD idx default
            let b1 := s.bush.setD node (inE.setD idx { e with flow := e.flow + demand })
            let ge := s.graph.getD e.eid default
            let newFlow := ge.flow + demand
            let g1 := s.graph.setD e.eid { ge with flow := newFlow, dist := ge.costFn newFlow }
            walkFlow demand fuel { s with bush := b1, graph := g1 } e.fromNode

/-- The destination loop of `sendInitialFlows`: look each destination up
(checked, line 93) and route its demand back to the root. -/
def sendFlowsGo (s : Bush) : List (Nat × Int) → Except String Bush
  | [] => Except.ok s
  | d :: ds => do
      let _ ← atArr s.sharedNodes d.1
      sendFlowsGo (walkFlow d.2 s.sharedNodes.size s d.1) ds

/-- `Bush::sendInitialFlows`: checked root lookup (line 90), then the
destination loop. -/
def sendInitialFlows (s : Bush) : Except String Bush := do
  let _ ← atArr s.sharedNodes s.origin.origin
  sendFlowsGo s s.origin.dests

/-- The `Bush::Bush` constructor: `setUpGraph`, `buildTrees`,
`sendInitialFlows`, then `changes.clear()`.  The shared node array and the
Dijkstra outputs are parameters.  Also returns the emitted diagnostics. -/
def mkBush (graph : Array NetEdge) (o : Origin) (initNodes : Array BushNode)
    (dm : Array (Option Nat)) (ordering : List Nat) (numV : Nat) :
    Except String (Bush × List Nat) := do
  let r ← setUpGraph graph o dm numV
  let s0 : Bush := ⟨graph, initNodes, r.1, ordering, [], o⟩
  let s1 := buildTrees s0
  let s2 ← sendInitialFlows s1
  Except.ok ({ s2 with changes := [] }, r.2)

/-! ### Equilibration: `Bush::equilibriateFlows` (lines 138–156)

`BushNode::equilibriate` lives in the missing header; the spec describes it
only as shifting flow from the node's max-distance path onto its
min-distance path.  The development therefore abstracts over it: every
definition and theorem below is parameterised by the per-node step
`equilibriate : Bush → Nat → Bush`. -/

/-- One scan of the destination list (lines 144–150): each destination whose
gap exceeds `accuracy` gets the per-node equilibration step applied to the
current state, and sets the scan's `thisTime` flag. -/
def equilibriateScan (equilibriate : Bush → Nat → Bush) (accuracy : Int) (s : Bush) :
    Bool × Bush :=
  s.origin.dests.foldl
    (fun acc d =>
      if (acc.2.sharedNodes.getD d.1 default).getDifference > accuracy
      then (true, equilibriate acc.2 d.1)
      else acc)
    (false, s)

/-- The `while (true)` loop of `equilibriateFlows`, with fuel: accumulate
`flowsChanged`, stop after a scan with no shift, rebuild the trees after a
scan that shifted. -/
def equilibriateFlowsAux (equilibriate : Bush → Nat → Bush) (accuracy : Int) :
    Nat → Bool → Bush → Bool × Bush
  | 0, fc, s => (fc, s)
  | fuel + 1, fc, s =>
      let r := equilibriateScan equilibriate accuracy s
      if r.1 then equilibriateFlowsAux equilibriate accuracy fuel (fc || r.1) (buildTrees r.2)
      else (fc || r.1, r.2)

/-- `Bush::equilibriateFlows`: build the trees, then run the scan loop. -/
def equilibriateFlows (equilibriate : Bush → Nat → Bush) (accuracy : Int) (fuel : Nat)
    (s : Bush) : Bool × Bush :=
  equilibriateFlowsAux equilibriate accuracy fuel false (buildTrees s)

/-! ### Restructuring: `Bush::applyBushEdgeChanges`, `Bush::topologicalSort`,
`Bush::updateEdges` (lines 175–261) -/

/-- Swap of two array entries, the embedding of `std::swap(inEdges[k],
inEdges[m])` (unchecked indices). -/
def arrSwap [Inhabited α] (a : Array α) (i j : Nat) : Array α :=
  let x := a.getD i default
  let y := a.getD j default
  (a.setD i y).setD j x

/-- The swap loop of `applyBushEdgeChanges` (lines 202–204): with `idxs` the
flagged indices of one node's group in list order, pair the last flagged
index with position `sz − 1`, the one before with `sz − 2`, and so on,
swapping each pair, last pair first. -/
def swapGo (sz : Nat) (a : Array BushEdge) : List Nat → Array BushEdge
  | [] => a
  | m :: ms => arrSwap (swapGo sz a ms) (sz - 1 - ms.length) m

/-- The network half of `BushEdge::swapDirection` (modelled from the spec):
the underlying arc's endpoints are exchanged. -/
def swapNetEdge (g : Array NetEdge) (eid : Nat) : Array NetEdge :=
  let e := g.getD eid default
  g.setD eid { e with fromNode := e.toNode, toNode := e.fromNode }

/-- One iteration of the re-insertion loop (lines 207–213) at tail position
`k` of `node`'s in-edge list: read the edge, reverse its direction in place
(its new source is `node`, modelled from the spec: `swapDirection` exchanges
from/to on the bush edge and its underlying arc) and append the reversed
edge to its former source's in-edge list. -/
def reinsertStep (node : Nat) (s : Bush) (k : Nat) : Bush :=
  let inE := s.bush.getD node #[]
  let e := inE.getD k default
  let e' : BushEdge := { e with fromNode := node }
  let g' := swapNetEdge s.graph e.eid
  let b1 := s.bush.setD node (inE.setD k e')
  let b2 := b1.setD e.fromNode ((b1.getD e.fromNode #[]).push e')
  { s with graph := g', bush := b2 }

/-- One per-node group of `applyBushEdgeChanges` (lines 191–216): swap the
flagged entries into the tail, reverse and re-insert each tail entry, then
truncate the flagged tail away (modelled from the spec:
`EdgeVector::resize` realises the "swapping into the tail, then truncating"
removal, leaving the first (length − flagged) entries). -/
def applyGroup (s : Bush) (node : Nat) (idxs : List Nat) : Bush :=
  let inE := s.bush.getD node #[]
  let len := inE.size
  let l := len - idxs.length
  let s1 := { s with bush := s.bush.setD node (swapGo len inE idxs) }
  let s2 := (List.range' l (len - l)).foldl (reinsertStep node) s1
  let inE2 := s2.bush.getD node #[]
  { s2 with bush := s2.bush.setD node (inE2.extract 0 l) }

/-- The grouping of the pending-changes list into maximal runs with the same
to-node (the `i`/`j` two-pointer scan of lines 191–195), keeping each group's
indices in list order. -/
def groupChanges : List (Nat × Nat) → List (Nat × List Nat)
  | [] => []
  | (n, i) :: rest =>
      match groupChanges rest with
      | [] => [(n, [i])]
      | (m, is) :: gs =>
          if n = m then (n, i :: is) :: gs else (n, [i]) :: (m, is) :: gs

/-- `Bush::applyBushEdgeChanges`: process the groups in order. -/
def applyBushEdgeChanges (s : Bush) : Bush :=
  (groupChanges s.changes).foldl (fun st g => applyGroup st g.1 g.2) s

/-- Stable insertion of a (max-distance key, node) pair: the new element goes
after every element with a strictly smaller key and before the first other
element, so equal keys keep the insertion-time order. -/
def stInsert (x : Int × Nat) : List (Int × Nat) → List (Int × Nat)
  | [] => [x]
  | y :: ys => if y.1 < x.1 then y :: stInsert x ys else x :: y :: ys

/-- Stable sort by key, the embedding of `std::stable_sort` with
`Bush::pairComparator` (compare the distance components): a stable sort is
extensionally determined, and this structurally recursive insertion sort is
used so that concrete runs reduce. -/
def stableSortKeys : List (Int × Nat) → List (Int × Nat)
  | [] => []
  | x :: xs => stInsert x (stableSortKeys xs)

/-- `Bush::topologicalSort` (lines 220–261): key every node of the current
ordering with its max distance, stable-sort by key, and write the node
components back as the new ordering. -/
def topologicalSort (s : Bush) : Bush :=
  let keyed := s.topologicalOrdering.map (fun i => ((s.sharedNodes.getD i default).maxDist, i))
  { s with topologicalOrdering := (stableSortKeys keyed).map (·.2) }

/-- `Bush::updateEdges` (lines 175–184): when changes are pending, apply
them, re-sort, clear the list and report `true`; otherwise report `false`. -/
def updateEdges (s : Bush) : Bool × Bush :=
  if s.changes.isEmpty then (false, s)
  else
    let s1 := topologicalSort (applyBushEdgeChanges s)
    (true, { s1 with changes := [] })

/-! ### Driver: `Bush::fix` (lines 129–136) -/

/-- The `do … while (updateEdges())` loop of `fix`, with fuel:
`localFlowChanged` accumulates each equilibration pass's result. -/
def fixAux (equilibriate : Bush → Nat → Bush) (accuracy : Int) (innerFuel : Nat) :
    Nat → Bool → Bush → Bool × Bush
  | 0, c, s => (c, s)
  | fuel + 1, c, s =>
      let r := equilibriateFlows equilibriate accuracy innerFuel s
      let u := updateEdges r.2
      if u.1 then fixAux equilibriate accuracy innerFuel fuel (r.1 || c) u.2
      else (r.1 || c, u.2)

/-- `Bush::fix`. -/
def fix (equilibriate : Bush → Nat → Bush) (accuracy : Int) (innerFuel outerFuel : Nat)
    (s : Bush) : Bool × Bush :=
  fixAux equilibriate accuracy innerFuel outerFuel false s

/-! ### Queries: `Bush::giveCount`, `Bush::allOrNothingCost`,
`Bush::maxDifference` (lines 263–329) -/

/-- The run scan of `giveCount` (lines 268–274), fused into one pass: each
element is compared (checked access) with its current run's first key `d`; a
match adds one to the count (the per-run `j − i − 1` contributions), a
mismatch starts a new run at this element. -/
def runLoop (ns : Array BushNode) : Int → Nat → List Nat → Except String Nat
  | _, acc, [] => Except.ok acc
  | d, acc, x :: xs => do
      let n ← atArr ns x
      if n.maxDist = d then runLoop ns d (acc + 1) xs
      else runLoop ns n.maxDist acc xs

/-- `Bush::giveCount`: rebuild the trees, then scan the topological ordering
by runs of equal max distance. -/
def giveCount (s : Bush) : Except String Nat × Bush :=
  let s' := buildTrees s
  (match s'.topologicalOrdering with
   | [] => Except.ok 0
   | x :: xs => do
       let n ← atArr s'.sharedNodes x
       runLoop s'.sharedNodes n.maxDist 0 xs,
   s')

/-- The predecessor walk of `allOrNothingCost` (lines 308–314): accumulate
demand × edge length back to the root, with fuel; a missing predecessor
stops the walk (modelled from the spec, as in `walkFlow`). -/
def aonWalk (s : Bush) (demand : Int) : Nat → Nat → Int
  | 0, _ => 0
  | fuel + 1, node =>
      if node = s.origin.origin then 0
      else
        match (s.sharedNodes.getD node default).minPred with
        | none => 0
        | some idx =>
            let e := (s.bush.getD node #[]).getD idx default
            demand * edgeLen s.graph e + aonWalk s demand fuel e.fromNode

/-- The destination loop of `allOrNothingCost`: checked destination lookup,
then the predecessor walk. -/
def allOrNothingCostGo (s : Bush) : List (Nat × Int) → Except String Int
  | [] => Except.ok 0
  | d :: ds => do
      let _ ← atArr s.sharedNodes d.1
      let rest ← allOrNothingCostGo s ds
      Except.ok (aonWalk s d.2 s.sharedNodes.size d.1 + rest)

/-- `Bush::allOrNothingCost`: rebuild the trees (the state side effect),
checked root lookup, then sum over destinations. -/
def allOrNothingCost (s : Bush) : Except String Int × Bush :=
  let s' := buildTrees s
  (do let _ ← atArr s'.sharedNodes s'.origin.origin
      allOrNothingCostGo s' s'.origin.dests,
   s')

/-- `Bush::maxDifference` (lines 322–329): rebuild the trees, then fold
`max` over the destinations' gaps, starting from 0, with unchecked
destination lookups. -/
def maxDifference (s : Bush) : Int × Bush :=
  let s' := buildTrees s
  (s'.origin.dests.foldl (fun r d => max r (s'.sharedNodes.getD d.1 default).getDifference) 0,
   s')

/-! ### Specification-side definitions

The following definitions transcribe the specification's wording (not the
source); the theorems below compare the source embeddings against them. -/

/-- Spec-side (claim C4): an arc is included exactly when both endpoints are
reachable and the source's shortest-path position is strictly smaller than
the target's. -/
def includeEdge (dm : Array (Option Nat)) (e : NetEdge) : Bool :=
  match dm.getD e.fromNode none, dm.getD e.toNode none with
  | some fp, some tp => decide (fp < tp)
  | _, _ => false

/-- Spec-side (claim C1): the trace of `fix`'s equilibration passes — one
equilibration pass, one restructuring pass, repeat while the restructuring
pass changed a direction, collecting each equilibration pass's result. -/
def fixPasses (equilibriate : Bush → Nat → Bush) (accuracy : Int) (innerFuel : Nat) :
    Nat → Bush → List Bool × Bush
  | 0, s => ([], s)
  | fuel + 1, s =>
      let r := equilibriateFlows equilibriate accuracy innerFuel s
      let u := updateEdges r.2
      if u.1 then
        let p := fixPasses equilibriate accuracy innerFuel fuel u.2
        (r.1 :: p.1, p.2)
      else ([r.1], u.2)

/-- Spec-side (claim C2): the trace of `equilibriateFlows`'s scans — stop
after a scan without a shift, rebuild the trees after every scan with one,
collecting each scan's result. -/
def eqPasses (equilibriate : Bush → Nat → Bush) (accuracy : Int) :
    Nat → Bush → List Bool × Bush
  | 0, s => ([], s)
  | fuel + 1, s =>
      let r := equilibriateScan equilibriate accuracy s
      if r.1 then
        let p := eqPasses equilibriate accuracy fuel (buildTrees r.2)
        (r.1 :: p.1, p.2)
      else ([r.1], r.2)

/-- Spec-side (claim C2): the destinations a scan equilibriates: exactly
those whose gap, at their turn, exceeds the accuracy. -/
def scanInvoked (equilibriate : Bush → Nat → Bush) (accuracy : Int) :
    Bush → List (Nat × Int) → List Nat × Bush
  | s, [] => ([], s)
  | s, d :: ds =>
      if (s.sharedNodes.getD d.1 default).getDifference > accuracy then
        let r := scanInvoked equilibriate accuracy (equilibriate s d.1) ds
        (d.1 :: r.1, r.2)
      else scanInvoked equilibriate accuracy s ds

/-- The max-distance keys of a state's topological ordering, in order. -/
def orderingKeys (s : Bush) : List Int :=
  s.topologicalOrdering.map (fun i => (s.sharedNodes.getD i default).maxDist)

/-- Spec-side (claim C7, amended): number of adjacent positions with equal
keys. -/
def adjCount : List Int → Nat
  | a :: b :: t => (if a = b then 1 else 0) + adjCount (b :: t)
  | _ => 0

/-- Spec-side (claim C7, as stated): number of unordered position pairs with
equal keys. -/
def pairCount : List Int → Nat
  | [] => 0
  | k :: ks => ks.countP (fun x => decide (x = k)) + pairCount ks

/-- Pure counterpart of `runLoop` on the key list, for its correctness
proof. -/
def runPure : Int → List Int → Nat
  | _, [] => 0
  | d, k :: ks => if k = d then 1 + runPure d ks else runPure k ks

/-- Pure counterpart of the `setUpGraph` edge loop: the in-edge list a node
ends up with, per the spec's inclusion rule. -/
def specInEdges (dm : Array (Option Nat)) (edges : List (Nat × NetEdge)) (v : Nat) :
    List BushEdge :=
  (edges.filter (fun p => decide (p.2.toNode = v) && includeEdge dm p.2)).map
    (fun p => ⟨p.1, p.2.fromNode, 0⟩)

/-- Spec-side (claim C5): flagged in-edges of node `w` contributed by the
group list `gs`, with edge values read off the state `s`. -/
def flagOf (s : Bush) (gs : List (Nat × List Nat)) (w : Nat) : List BushEdge :=
  (gs.map (fun g =>
      if g.1 = w then g.2.map (fun i => (s.bush.getD g.1 #[]).getD i default) else [])).flatten

/-- Spec-side (claim C5): all flagged in-edges of the group list `gs`, in
processing order, values read off `s`. -/
def flagAll (s : Bush) (gs : List (Nat × List Nat)) : List BushEdge :=
  (gs.map (fun g => g.2.map (fun i => (s.bush.getD g.1 #[]).getD i default))).flatten

/-- Spec-side (claim C5): the direction-reversed edges of the group list
`gs` re-inserted at node `w` (old source `w`, new source the old target),
in processing order, values read off `s`. -/
def revOf (s : Bush) (gs : List (Nat × List Nat)) (w : Nat) : List BushEdge :=
  (gs.map (fun g =>
      ((g.2.map (fun i => (s.bush.getD g.1 #[]).getD i default)).filter
          (fun e => decide (e.fromNode = w))).map
        (fun e => { e with fromNode := g.1 }))).flatten

/-- Spec-side (claim C5): the flagged in-edges of node `w`, read off the
pre-restructuring state. -/
def flaggedAt (s : Bush) (w : Nat) : List BushEdge :=
  flagOf s (groupChanges s.changes) w

/-- Spec-side (claim C5): all flagged in-edges, in processing order. -/
def allFlagged (s : Bush) : List BushEdge :=
  flagAll s (groupChanges s.changes)

/-- Spec-side (claim C5): the direction-reversed edges re-inserted at node
`w` (old source `w`, new source the old target), in processing order. -/
def reversedTo (s : Bush) (w : Nat) : List BushEdge :=
  revOf s (groupChanges s.changes) w

/-- The endpoint swap of one network arc record. -/
def swapsOf (e : NetEdge) : NetEdge :=
  { e with fromNode := e.toNode, toNode := e.fromNode }

/-- Strict before-ness in a node list, via first positions. -/
def listBefore (l : List Nat) (u v : Nat) : Prop :=
  u ∈ l ∧ v ∈ l ∧ l.indexOf u < l.indexOf v

/-! ### Concrete states for witnesses and counterexamples -/

/-- A star network 0→1, 0→2, 0→3, each of length 1, with its bush. -/
def star4 : Bush :=
  { graph := #[⟨0, 1, 0, 1, fun _ => 1⟩, ⟨0, 2, 0, 1, fun _ => 1⟩, ⟨0, 3, 0, 1, fun _ => 1⟩]
    sharedNodes := #[default, default, default, default]
    bush := #[#[], #[⟨0, 0, 0⟩], #[⟨1, 0, 0⟩], #[⟨2, 0, 0⟩]]
    topologicalOrdering := [0, 1, 2, 3]
    changes := []
    origin := ⟨0, [(3, 10)]⟩ }

/-- A two-node network with a single zero-length arc 0→1 in the bush. -/
def zeroLen2 : Bush :=
  { graph := #[⟨0, 1, 0, 0, fun _ => 0⟩]
    sharedNodes := #[default, default]
    bush := #[#[], #[⟨0, 0, 0⟩]]
    topologicalOrdering := [0, 1]
    changes := []
    origin := ⟨0, [(1, 1)]⟩ }

/-- A three-node chain 0→1→2 whose stored topological ordering `[0, 2, 1]`
is stale: node 2's in-edge comes from the later-ordered node 1, whose
pre-pass distance is 5. -/
def stale3 : Bush :=
  { graph := #[⟨0, 1, 0, 1, fun _ => 1⟩, ⟨1, 2, 0, 1, fun _ => 1⟩]
    sharedNodes := #[default, ⟨5, 5, none⟩, default]
    bush := #[#[], #[⟨0, 0, 0⟩], #[⟨1, 1, 0⟩]]
    topologicalOrdering := [0, 2, 1]
    changes := []
    origin := ⟨0, [(2, 1)]⟩ }

/-- A two-node state whose destination id 5 is out of range. -/
def oob2 : Bush :=
  { graph := #[⟨0, 1, 0, 0, fun _ => 0⟩]
    sharedNodes := #[default, default]
    bush := #[#[], #[⟨0, 0, 0⟩]]
    topologicalOrdering := [0, 1]
    changes := []
    origin := ⟨0, [(5, 1)]⟩ }

/-- A two-node state whose origin id 5 is out of range. -/
def oobRoot2 : Bush :=
  { graph := #[⟨0, 1, 0, 0, fun _ => 0⟩]
    sharedNodes := #[default, default]
    bush := #[#[], #[⟨0, 0, 0⟩]]
    topologicalOrdering := [0, 1]
    changes := []
    origin := ⟨5, [(1, 1)]⟩ }

/-- A four-node state with one pending change: node 2's in-edge 0 (arc 0,
from node 0) is flagged for reversal. -/
def pend4 : Bush :=
  { graph := #[⟨0, 2, 0, 1, fun _ => 1⟩, ⟨1, 2, 0, 1, fun _ => 1⟩, ⟨3, 2, 0, 1, fun _ => 1⟩]
    sharedNodes := #[⟨0, 0, none⟩, ⟨1, 1, none⟩, ⟨2, 2, none⟩, ⟨1, 1, none⟩]
    bush := #[#[], #[], #[⟨0, 0, 7⟩, ⟨1, 1, 8⟩, ⟨2, 3, 9⟩], #[]]
    topologicalOrdering := [0, 1, 3, 2]
    changes := [(2, 0), (2, 2)]
    origin := ⟨0, []⟩ }

/-- A four-node state with tied max distances (nodes 1 and 3 tie at 1,
nodes 0 and 2 tie at 3) for the stable-sort witness. -/
def tie4 : Bush :=
  { graph := #[]
    sharedNodes := #[⟨3, 3, none⟩, ⟨1, 1, none⟩, ⟨3, 3, none⟩, ⟨1, 1, none⟩]
    bush := #[#[], #[], #[], #[]]
    topologicalOrdering := [0, 1, 2, 3]
    changes := []
    origin := ⟨0, []⟩ }

/-- Construction inputs with an unreachable destination: arcs 0→1 and 2→1,
node 2 unreachable from origin 0, demand destined to node 2. -/
def unreachGraph : Array NetEdge := #[⟨0, 1, 0, 1, fun _ => 1⟩, ⟨2, 1, 0, 1, fun _ => 1⟩]

/-- The origin record asking for the unreachable destination 2. -/
def unreachOrigin : Origin := ⟨0, [(2, 4)]⟩

/-- The Dijkstra oracle outputs for `unreachGraph`: node 2 unreachable. -/
def unreachDm : Array (Option Nat) := #[some 0, some 1, none]

/-- The shared node array for the construction witness. -/
def initNodes3 : Array BushNode := #[default, default, default]

/-- A fully reachable distance map for `star4`'s network. -/
def dm4 : Array (Option Nat) := #[some 0, some 1, some 2, some 3]

/-! ## Array toolkit -/

theorem getD_setD_self {a : Array α} {i : Nat} (h : i < a.size) (v d : α) :
    (a.setD i v).getD i d = v := by
  simp [Array.setD, Array.getD, h, Array.get_set]

theorem getD_setD_ne {a : Array α} {i j : Nat} (hne : i ≠ j) (v d : α) :
    (a.setD i v).getD j d = a.getD j d := by
  by_cases hi : i < a.size
  · by_cases hj : j < a.size
    · simp [Array.setD, Array.getD, hi, hj, Array.get_set, hne]
    · simp [Array.setD, Array.getD, hi, hj]
  · simp [Array.setD, hi]

theorem getD_oob {a : Array α} {i : Nat} (h : a.size ≤ i) (d : α) : a.getD i d = d := by
  simp [Array.getD, Nat.not_lt.2 h]

theorem getD_lt {a : Array α} {i : Nat} (h : i < a.size) (d : α) :
    a.getD i d = a.get ⟨i, h⟩ := by
  simp [Array.getD, h]

theorem getD_push_lt {a : Array α} {i : Nat} (h : i < a.size) (x d : α) :
    (a.push x).getD i d = a.getD i d := by
  have h' : i < (a.push x).size := by simp [Array.size_push]; omega
  rw [getD_lt h', getD_lt h]
  simp [Array.getElem_push, h]

/-! ## Frame lemmas for `buildTrees` -/

theorem buildTrees_graph (s : Bush) : (buildTrees s).graph = s.graph := rfl

theorem buildTrees_bush (s : Bush) : (buildTrees s).bush = s.bush := rfl

theorem buildTrees_ordering (s : Bush) :
    (buildTrees s).topologicalOrdering = s.topologicalOrdering := rfl

theorem buildTrees_origin (s : Bush) : (buildTrees s).origin = s.origin := rfl

/-- `buildStep` writes only to the node array and the change list. -/
theorem buildStep_fst_size (g : Array NetEdge) (bsh : Array (Array BushEdge))
    (st : Array BushNode × List (Nat × Nat)) (id : Nat) :
    (buildStep g bsh st id).1.size = st.1.size := by
  unfold buildStep
  dsimp only
  cases h : scanIn g st.1 (bsh.getD id #[]).toList with
  | none => rfl
  | some v => rcases v with ⟨mn, mi, mx⟩; exact Array.size_setD _ _ _

/-- The `buildTrees` fold preserves the node-array size. -/
theorem foldl_buildStep_size (g : Array NetEdge) (bsh : Array (Array BushEdge)) :
    ∀ (l : List Nat) (st : Array BushNode × List (Nat × Nat)),
      (l.foldl (buildStep g bsh) st).1.size = st.1.size
  | [], _ => rfl
  | v :: rest, st => by
      rw [List.foldl_cons, foldl_buildStep_size g bsh rest]
      exact buildStep_fst_size g bsh st v

theorem buildTrees_nodes_size (s : Bush) :
    (buildTrees s).sharedNodes.size = s.sharedNodes.size := by
  show ((s.topologicalOrdering.drop 1).foldl (buildStep s.graph s.bush)
      (setOriginDist s.sharedNodes s.origin.origin, [])).1.size = _
  rw [foldl_buildStep_size]
  simp [setOriginDist]

/-! ## Claim C10: query operations leave flows, edges and lengths unchanged -/

/-- C10: `maxDifference` and `allOrNothingCost` leave the bush-edge lists
(with their flows), the network arcs (flows and cached lengths) and the
ordering unchanged; their only state effect is exactly the tree rebuild. -/
theorem queries_frame_effect (s : Bush) :
    (maxDifference s).2 = buildTrees s ∧
    (allOrNothingCost s).2 = buildTrees s ∧
    (buildTrees s).bush = s.bush ∧
    (buildTrees s).graph = s.graph ∧
    (buildTrees s).topologicalOrdering = s.topologicalOrdering :=
  ⟨rfl, rfl, rfl, rfl, rfl⟩

/-! ## Claim C1: the `fix` driver loop -/

/-- The `fix` loop equals its pass trace: the returned flag is the
disjunction of the equilibration passes' results. -/
theorem fixAux_eq_passes (eqf : Bush → Nat → Bush) (acc : Int) (iF : Nat) :
    ∀ (f : Nat) (c : Bool) (s : Bush),
      fixAux eqf acc iF f c s =
        (c || (fixPasses eqf acc iF f s).1.any id, (fixPasses eqf acc iF f s).2)
  | 0, c, s => by simp [fixAux, fixPasses]
  | f + 1, c, s => by
      simp only [fixAux, fixPasses]
      by_cases h : (updateEdges (equilibriateFlows eqf acc iF s).2).1 = true
      · simp only [h, if_true, fixAux_eq_passes eqf acc iF f]
        cases (equilibriateFlows eqf acc iF s).1 <;> cases c <;> simp
      · rw [Bool.not_eq_true] at h
        simp only [h, Bool.false_eq_true, if_false]
        cases (equilibriateFlows eqf acc iF s).1 <;> cases c <;> simp

/-- C1: `fix` alternates one equilibration pass with one restructuring pass
(`fixPasses` is that alternation, stopping exactly when the restructuring
pass reports no direction change), and returns true iff some equilibration
pass reported a flow change; a restructuring pass reports a change exactly
when directions were pending. -/
theorem fix_alternation_spec (eqf : Bush → Nat → Bush) (acc : Int)
    (innerFuel outerFuel : Nat) (s : Bush) :
    fix eqf acc innerFuel outerFuel s =
      ((fixPasses eqf acc innerFuel outerFuel s).1.any id,
        (fixPasses eqf acc innerFuel outerFuel s).2) ∧
    ∀ t : Bush, (updateEdges t).1 = true ↔ t.changes ≠ [] := by
  constructor
  · rw [fix, fixAux_eq_passes]
    simp
  · intro t
    rw [updateEdges]
    by_cases h : t.changes.isEmpty
    · simp [h, List.isEmpty_iff.1 h]
    · simp [h, List.isEmpty_iff]
      exact fun hnil => h (by simp [hnil])

/-! ## Claim C2: `equilibriateFlows` -/

/-- The scan loop equals its trace over the scan-pass list. -/
theorem eqFlowsAux_eq_passes (eqf : Bush → Nat → Bush) (acc : Int) :
    ∀ (f : Nat) (c : Bool) (s : Bush),
      equilibriateFlowsAux eqf acc f c s =
        (c || (eqPasses eqf acc f s).1.any id, (eqPasses eqf acc f s).2)
  | 0, c, s => by simp [equilibriateFlowsAux, eqPasses]
  | f + 1, c, s => by
      simp only [equilibriateFlowsAux, eqPasses]
      by_cases h : (equilibriateScan eqf acc s).1 = true
      · simp only [h, if_true, eqFlowsAux_eq_passes eqf acc f]
        cases c <;> simp
      · rw [Bool.not_eq_true] at h
        simp only [h, Bool.false_eq_true, if_false]
        cases c <;> simp

/-- The destination scan equals its invoked-destination trace: the shift
flag is set iff the list of destinations whose gap exceeded the accuracy at
their turn is non-empty, and the state results from equilibrating exactly
those. -/
theorem scan_foldl_invoked (eqf : Bush → Nat → Bush) (acc : Int) :
    ∀ (ds : List (Nat × Int)) (b : Bool) (s : Bush),
      ds.foldl
          (fun a d =>
            if (a.2.sharedNodes.getD d.1 default).getDifference > acc
            then (true, eqf a.2 d.1) else a)
          (b, s) =
        (b || !(scanInvoked eqf acc s ds).1.isEmpty, (scanInvoked eqf acc s ds).2)
  | [], b, s => by simp [scanInvoked]
  | d :: ds, b, s => by
      simp only [List.foldl_cons, scanInvoked]
      by_cases h : (s.sharedNodes.getD d.1 default).getDifference > acc
      · simp only [if_pos h, scan_foldl_invoked eqf acc ds]
        simp
      · simp only [if_neg h, scan_foldl_invoked eqf acc ds]

/-- C2: `equilibriateFlows` first rebuilds the trees and then equals its
scan trace (`eqPasses`: stop at the first scan with no shift, rebuild after
every scan with one), returning true iff some scan shifted; and every scan
invokes the per-node step exactly on the destinations whose gap exceeds the
accuracy at their turn. -/
theorem equilibriateFlows_spec (eqf : Bush → Nat → Bush) (acc : Int) (fuel : Nat) (s : Bush) :
    equilibriateFlows eqf acc fuel s =
      ((eqPasses eqf acc fuel (buildTrees s)).1.any id,
        (eqPasses eqf acc fuel (buildTrees s)).2) ∧
    ∀ t : Bush,
      equilibriateScan eqf acc t =
        (!(scanInvoked eqf acc t t.origin.dests).1.isEmpty,
          (scanInvoked eqf acc t t.origin.dests).2) := by
  constructor
  · rw [equilibriateFlows, eqFlowsAux_eq_passes]
    simp
  · intro t
    rw [equilibriateScan, scan_foldl_invoked]
    simp

/-! ## Claim C4: construction includes exactly the order-respecting arcs -/

theorem atArr_lt {a : Array α} {i : Nat} (h : i < a.size) (d : α) :
    atArr a i = Except.ok (a.getD i d) := by
  rw [getD_lt h]
  simp [atArr, h]

theorem set_eq_setD {a : Array α} {i : Nat} (h : i < a.size) (v : α) :
    a.set ⟨i, h⟩ v = a.setD i v := by
  simp [Array.setD, h]

theorem addBushEdge_ok {b : Array (Array BushEdge)} {toId : Nat} (h : toId < b.size)
    (e : BushEdge) :
    addBushEdge b toId e = Except.ok (b.setD toId ((b.getD toId #[]).push e)) := by
  rw [getD_lt h]
  simp [addBushEdge, h, set_eq_setD h]

/-- The diagnostic loop reports exactly the unreachable destinations, in
order. -/
theorem unreachableDiags_ok (dm : Array (Option Nat)) :
    ∀ (ds : List (Nat × Int)), (∀ d ∈ ds, d.1 < dm.size) →
      unreachableDiags dm ds =
        Except.ok ((ds.filter (fun d => (dm.getD d.1 none).isNone)).map (·.1))
  | [], _ => rfl
  | d :: ds, h => by
      have hd : d.1 < dm.size := h d (by simp)
      have hrest := unreachableDiags_ok dm ds (fun x hx => h x (by simp [hx]))
      rw [unreachableDiags, atArr_lt hd none, hrest]
      cases hv : dm.getD d.1 none with
      | none =>
          rw [Array.getD_eq_get?] at hv
          simp only [List.filter_cons, Array.getD_eq_get?, hv, Option.isNone_none, if_true]
          rfl
      | some p =>
          rw [Array.getD_eq_get?] at hv
          simp only [List.filter_cons, Array.getD_eq_get?, hv, Option.isNone_some,
            Bool.false_eq_true, if_false]
          rfl

/-- The edge loop appends, to each node's in-edge list, exactly the spec's
included arcs targeting it, in arc order. -/
theorem setUpEdges_spec (dm : Array (Option Nat)) :
    ∀ (l : List (Nat × NetEdge)) (b : Array (Array BushEdge)),
      (∀ p ∈ l, p.2.toNode < dm.size ∧ p.2.fromNode < dm.size ∧ p.2.toNode < b.size) →
      ∃ b', setUpEdges dm l b = Except.ok b' ∧ b'.size = b.size ∧
        ∀ v, (b'.getD v #[]).toList = (b.getD v #[]).toList ++ specInEdges dm l v
  | [], b, _ => ⟨b, rfl, rfl, fun v => by simp [specInEdges]⟩
  | (eid, e) :: rest, b, h => by
      obtain ⟨hto, hfrom, htoB⟩ := h (eid, e) (by simp)
      have hrest : ∀ p ∈ rest, p.2.toNode < dm.size ∧ p.2.fromNode < dm.size := by
        intro p hp
        exact ⟨(h p (by simp [hp])).1, (h p (by simp [hp])).2.1⟩
      rw [setUpEdges, atArr_lt hto none, atArr_lt hfrom none]
      cases hf : dm.getD e.fromNode none with
      | none =>
          obtain ⟨b', h1, h2, h3⟩ := setUpEdges_spec dm rest b
            (fun p hp => h p (by simp [hp]))
          rw [Array.getD_eq_get?] at hf
          refine ⟨b', ?_, h2, fun v => ?_⟩
          · cases ht2 : dm.getD e.toNode none <;> exact h1
          · rw [h3 v]
            simp [specInEdges, List.filter_cons, includeEdge, hf]
      | some fp =>
          cases ht : dm.getD e.toNode none with
          | none =>
              obtain ⟨b', h1, h2, h3⟩ := setUpEdges_spec dm rest b
                (fun p hp => h p (by simp [hp]))
              rw [Array.getD_eq_get?] at hf ht
              refine ⟨b', ?_, h2, fun v => ?_⟩
              · exact h1
              · rw [h3 v]
                simp [specInEdges, List.filter_cons, includeEdge, hf, ht]
          | some tp =>
              by_cases hlt : fp < tp
              · set b1 := b.setD e.toNode ((b.getD e.toNode #[]).push ⟨eid, e.fromNode, 0⟩)
                  with hb1
                have hsz : b1.size = b.size := Array.size_setD _ _ _
                obtain ⟨b', h1, h2, h3⟩ := setUpEdges_spec dm rest b1
                  (fun p hp => ⟨(h p (by simp [hp])).1, (h p (by simp [hp])).2.1, by
                    rw [hsz]; exact (h p (by simp [hp])).2.2⟩)
                rw [Array.getD_eq_get?] at hf ht
                refine ⟨b', ?_, by rw [h2, hsz], fun v => ?_⟩
                · show (if fp < tp then
                        (addBushEdge b e.toNode ⟨eid, e.fromNode, 0⟩ >>= setUpEdges dm rest)
                      else setUpEdges dm rest b) = Except.ok b'
                  rw [if_pos hlt, addBushEdge_ok htoB]
                  exact h1
                · rw [h3 v]
                  by_cases hv : e.toNode = v
                  · subst hv
                    rw [hb1, getD_setD_self htoB]
                    simp [specInEdges, List.filter_cons, includeEdge, hf, ht, hlt,
                      Array.push_toList]
                  · rw [hb1, getD_setD_ne hv]
                    simp [specInEdges, List.filter_cons, includeEdge, hf, ht, hlt,
                      Ne.symm hv, hv]
              · obtain ⟨b', h1, h2, h3⟩ := setUpEdges_spec dm rest b
                  (fun p hp => h p (by simp [hp]))
                rw [Array.getD_eq_get?] at hf ht
                refine ⟨b', ?_, h2, fun v => ?_⟩
                · show (if fp < tp then
                        (addBushEdge b e.toNode ⟨eid, e.fromNode, 0⟩ >>= setUpEdges dm rest)
                      else setUpEdges dm rest b) = Except.ok b'
                  rw [if_neg hlt]
                  exact h1
                · rw [h3 v]
                  simp [specInEdges, List.filter_cons, includeEdge, hf, ht, hlt]

theorem getD_mkArray_empty (numV v : Nat) :
    ((Array.mkArray numV (#[] : Array BushEdge)).getD v #[]) = #[] := by
  by_cases hv : v < (Array.mkArray numV (#[] : Array BushEdge)).size
  · rw [getD_lt hv]
    simp [Array.get]
  · rw [getD_oob (Nat.not_lt.1 hv)]

/-- C4: at construction, an arc whose endpoints are both reachable is
included as a bush in-edge of its target node iff its source's
shortest-path position is strictly smaller than its target's; arcs with an
unreachable endpoint are excluded from every in-edge list. -/
theorem setUpGraph_inclusion (graph : Array NetEdge) (o : Origin) (dm : Array (Option Nat))
    (numV : Nat)
    (hdest : ∀ d ∈ o.dests, d.1 < dm.size)
    (hbound : ∀ p ∈ graph.toList.enum,
      p.2.toNode < dm.size ∧ p.2.fromNode < dm.size ∧ p.2.toNode < numV) :
    ∃ b diags, setUpGraph graph o dm numV = Except.ok (b, diags) ∧
      (∀ v, (b.getD v #[]).toList = specInEdges dm graph.toList.enum v) ∧
      (∀ eid e, (eid, e) ∈ graph.toList.enum →
        (((⟨eid, e.fromNode, 0⟩ : BushEdge) ∈ (b.getD e.toNode #[]).toList) ↔
          includeEdge dm e = true)) ∧
      (∀ eid e, (eid, e) ∈ graph.toList.enum →
        (dm.getD e.fromNode none = none ∨ dm.getD e.toNode none = none) →
        ∀ v, (⟨eid, e.fromNode, 0⟩ : BushEdge) ∉ (b.getD v #[]).toList) := by
  have hdiags := unreachableDiags_ok dm o.dests hdest
  obtain ⟨b, h1, _, h3⟩ := setUpEdges_spec dm graph.toList.enum (Array.mkArray numV #[])
    (fun p hp => ⟨(hbound p hp).1, (hbound p hp).2.1, by
      rw [Array.size_mkArray]; exact (hbound p hp).2.2⟩)
  have hchar : ∀ v, (b.getD v #[]).toList = specInEdges dm graph.toList.enum v := by
    intro v
    rw [h3 v, getD_mkArray_empty]
    simp
  have hkey : ∀ (eid : Nat) (e e' : NetEdge), (eid, e) ∈ graph.toList.enum →
      (eid, e') ∈ graph.toList.enum → e = e' := by
    intro eid e e' he he'
    have g1 := List.mk_mem_enum_iff_getElem?.mp he
    have g2 := List.mk_mem_enum_iff_getElem?.mp he'
    rw [g1] at g2
    exact Option.some.inj g2
  refine ⟨b, (o.dests.filter (fun d => (dm.getD d.1 none).isNone)).map (·.1), ?_, hchar, ?_, ?_⟩
  · rw [setUpGraph, hdiags, h1]
    rfl
  · intro eid e he
    constructor
    · intro hmem
      rw [hchar] at hmem
      obtain ⟨q, hq, hqe⟩ := List.mem_map.1 hmem
      obtain ⟨hqmem, hqcond⟩ := List.mem_filter.1 hq
      have hq1 : q.1 = eid := congrArg BushEdge.eid hqe
      have : q.2 = e := hkey eid q.2 e (by rw [← hq1]; exact hqmem) he
      rw [Bool.and_eq_true] at hqcond
      rw [← this]
      exact hqcond.2
    · intro hinc
      rw [hchar]
      refine List.mem_map.2 ⟨(eid, e), List.mem_filter.2 ⟨he, ?_⟩, rfl⟩
      simp [hinc]
  · intro eid e he hun v hmem
    have hinc : includeEdge dm e = false := by
      rw [includeEdge]
      cases hun with
      | inl h' => rw [h']
      | inr h' =>
          rw [h']
          cases dm.getD e.fromNode none <;> rfl
    rw [hchar] at hmem
    obtain ⟨q, hq, hqe⟩ := List.mem_map.1 hmem
    obtain ⟨hqmem, hqcond⟩ := List.mem_filter.1 hq
    have hq1 : q.1 = eid := congrArg BushEdge.eid hqe
    have hqq : q.2 = e := hkey eid q.2 e (by rw [← hq1]; exact hqmem) he
    rw [Bool.and_eq_true, hqq, hinc] at hqcond
    exact absurd hqcond.2 (by simp)

/-- Witness for C4 at a concrete network. -/
theorem setUpGraph_inclusion_witness :
    ∃ b diags, setUpGraph star4.graph star4.origin dm4 4 = Except.ok (b, diags) ∧
      (∀ v, (b.getD v #[]).toList = specInEdges dm4 star4.graph.toList.enum v) ∧
      (∀ eid e, (eid, e) ∈ star4.graph.toList.enum →
        (((⟨eid, e.fromNode, 0⟩ : BushEdge) ∈ (b.getD e.toNode #[]).toList) ↔
          includeEdge dm4 e = true)) ∧
      (∀ eid e, (eid, e) ∈ star4.graph.toList.enum →
        (dm4.getD e.fromNode none = none ∨ dm4.getD e.toNode none = none) →
        ∀ v, (⟨eid, e.fromNode, 0⟩ : BushEdge) ∉ (b.getD v #[]).toList) :=
  setUpGraph_inclusion star4.graph star4.origin dm4 4 (by decide) (by decide)

/-! ## Claim C8: unreachable destinations are survivable diagnostics -/

/-- The flow walk never touches the shared node array. -/
theorem walkFlow_sharedNodes (demand : Int) :
    ∀ (fuel : Nat) (s : Bush) (node : Nat),
      (walkFlow demand fuel s node).sharedNodes = s.sharedNodes
  | 0, _, _ => rfl
  | fuel + 1, s, node => by
      rw [walkFlow]
      by_cases h : node = s.origin.origin
      · simp [h]
      · simp only [h, if_false]
        cases hp : (s.sharedNodes.getD node default).minPred with
        | none => rfl
        | some idx => rw [walkFlow_sharedNodes demand fuel]

/-- The flow walk never touches the origin record. -/
theorem walkFlow_origin (demand : Int) :
    ∀ (fuel : Nat) (s : Bush) (node : Nat), (walkFlow demand fuel s node).origin = s.origin
  | 0, _, _ => rfl
  | fuel + 1, s, node => by
      rw [walkFlow]
      by_cases h : node = s.origin.origin
      · simp [h]
      · simp only [h, if_false]
        cases hp : (s.sharedNodes.getD node default).minPred with
        | none => rfl
        | some idx => rw [walkFlow_origin demand fuel]

/-- The destination loop of `sendInitialFlows` succeeds whenever every
destination id is in range, and leaves the node array untouched. -/
theorem sendFlowsGo_ok :
    ∀ (ds : List (Nat × Int)) (s : Bush), (∀ d ∈ ds, d.1 < s.sharedNodes.size) →
      ∃ s', sendFlowsGo s ds = Except.ok s' ∧ s'.sharedNodes = s.sharedNodes
  | [], s, _ => ⟨s, rfl, rfl⟩
  | d :: ds, s, h => by
      have hd : d.1 < s.sharedNodes.size := h d (by simp)
      have hw := walkFlow_sharedNodes d.2 s.sharedNodes.size s d.1
      obtain ⟨s', h1, h2⟩ := sendFlowsGo_ok ds (walkFlow d.2 s.sharedNodes.size s d.1)
        (fun x hx => by rw [hw]; exact h x (by simp [hx]))
      refine ⟨s', ?_, by rw [h2, hw]⟩
      rw [sendFlowsGo, atArr_lt hd default]
      exact h1

/-- `sendInitialFlows` succeeds whenever the origin and every destination id
are in range, and leaves the node array untouched. -/
theorem sendInitialFlows_ok {s : Bush} (ho : s.origin.origin < s.sharedNodes.size)
    (hd : ∀ d ∈ s.origin.dests, d.1 < s.sharedNodes.size) :
    ∃ s', sendInitialFlows s = Except.ok s' ∧ s'.sharedNodes = s.sharedNodes := by
  obtain ⟨s', h1, h2⟩ := sendFlowsGo_ok s.origin.dests s hd
  refine ⟨s', ?_, h2⟩
  rw [sendInitialFlows, atArr_lt ho default]
  exact h1

/-- The `buildTrees` fold writes only to the nodes it processes. -/
theorem foldl_buildStep_getD_notin (g : Array NetEdge) (bsh : Array (Array BushEdge)) (d : BushNode) :
    ∀ (l : List Nat) (st : Array BushNode × List (Nat × Nat)) (v : Nat), v ∉ l →
      (l.foldl (buildStep g bsh) st).1.getD v d = st.1.getD v d
  | [], _, _, _ => rfl
  | x :: l, st, v, hv => by
      rw [List.foldl_cons, foldl_buildStep_getD_notin g bsh d l _ v (fun h => hv (by simp [h]))]
      unfold buildStep
      dsimp only
      cases hs : scanIn g st.1 (bsh.getD x #[]).toList with
      | none => rfl
      | some r =>
          rcases r with ⟨mn, mi, mx⟩
          exact getD_setD_ne (fun h => hv (by simp [h])) _ _

/-- A node outside the processed ordering (and different from the origin)
keeps its distance state across `buildTrees`. -/
theorem buildTrees_nodes_notin {s : Bush} {v : Nat} (hv : v ∉ s.topologicalOrdering.drop 1)
    (hne : v ≠ s.origin.origin) (d : BushNode) :
    (buildTrees s).sharedNodes.getD v d = s.sharedNodes.getD v d := by
  show ((s.topologicalOrdering.drop 1).foldl (buildStep s.graph s.bush)
      (setOriginDist s.sharedNodes s.origin.origin, [])).1.getD v d = _
  rw [foldl_buildStep_getD_notin _ _ _ _ _ _ hv]
  exact getD_setD_ne (Ne.symm hne) _ _

/-- C8: with all ids in range, construction with an unreachable destination
does not fail: it returns a bush, the unreachable destination is reported in
the diagnostics, and — being outside the topological ordering — its node is
excluded from the tree computation (its distance state stays untouched). -/
theorem construction_survives_unreachable
    (graph : Array NetEdge) (o : Origin) (initNodes : Array BushNode)
    (dm : Array (Option Nat)) (ordering : List Nat) (numV : Nat)
    (hdest : ∀ d ∈ o.dests, d.1 < dm.size)
    (hdest2 : ∀ d ∈ o.dests, d.1 < initNodes.size)
    (horig : o.origin < initNodes.size)
    (hbound : ∀ p ∈ graph.toList.enum,
      p.2.toNode < dm.size ∧ p.2.fromNode < dm.size ∧ p.2.toNode < numV)
    (du : Nat) (dem : Int) (hdu : (du, dem) ∈ o.dests) (hun : dm.getD du none = none)
    (hnotin : du ∉ ordering.drop 1) (hne : du ≠ o.origin) :
    ∃ b diags, mkBush graph o initNodes dm ordering numV = Except.ok (b, diags) ∧
      du ∈ diags ∧
      b.sharedNodes.getD du default = initNodes.getD du default := by
  have hdiags := unreachableDiags_ok dm o.dests hdest
  obtain ⟨bs, h1, _, _⟩ := setUpEdges_spec dm graph.toList.enum (Array.mkArray numV #[])
    (fun p hp => ⟨(hbound p hp).1, (hbound p hp).2.1, by
      rw [Array.size_mkArray]; exact (hbound p hp).2.2⟩)
  have hsetup : setUpGraph graph o dm numV =
      Except.ok (bs, (o.dests.filter (fun d => (dm.getD d.1 none).isNone)).map (·.1)) := by
    rw [setUpGraph, hdiags, h1]
    rfl
  set s0 : Bush := ⟨graph, initNodes, bs, ordering, [], o⟩ with hs0
  have hsz1 : (buildTrees s0).sharedNodes.size = initNodes.size := buildTrees_nodes_size s0
  obtain ⟨s2, h2, h2n⟩ := sendInitialFlows_ok
    (s := buildTrees s0)
    (by rw [hsz1]; exact horig)
    (by rw [hsz1]; exact hdest2)
  refine ⟨{ s2 with changes := [] },
    (o.dests.filter (fun d => (dm.getD d.1 none).isNone)).map (·.1), ?_, ?_, ?_⟩
  · rw [mkBush, hsetup]
    show (sendInitialFlows (buildTrees s0)).bind _ = _
    rw [h2]
    rfl
  · exact List.mem_map.2 ⟨(du, dem), List.mem_filter.2 ⟨hdu, by simp [hun]⟩, rfl⟩
  · show s2.sharedNodes.getD du default = _
    rw [h2n, buildTrees_nodes_notin hnotin hne]

/-- Witness for C8 on the concrete unreachable-destination network. -/
theorem construction_survives_unreachable_witness :
    ∃ b diags, mkBush unreachGraph unreachOrigin initNodes3 unreachDm [0, 1] 3 =
        Except.ok (b, diags) ∧
      2 ∈ diags ∧
      b.sharedNodes.getD 2 default = initNodes3.getD 2 default :=
  construction_survives_unreachable unreachGraph unreachOrigin initNodes3 unreachDm [0, 1] 3
    (by decide) (by decide) (by decide) (by decide) 2 4 (by decide) (by decide)
    (by decide) (by decide)

/-! ## Claim C9: bounds checking is not uniform -/

theorem atArr_oob {a : Array α} {i : Nat} (h : a.size ≤ i) :
    atArr a i = Except.error "vector index out of range" := by
  simp [atArr, Nat.not_lt.2 h]

/-- Counterexample to C9 as stated: on a state whose only destination id (5)
is out of range for its two-node array, `maxDifference` performs no bounds
check and returns the ordinary value 0 computed from a default node — it
does not fail — while the checked lookup in `sendInitialFlows` does fail
fast on the same state. -/
theorem boundsCheck_cex :
    (maxDifference oob2).1 = 0 ∧ isErr (sendInitialFlows oob2) = true := by
  constructor
  · decide
  · decide

/-- A destination scan on a state where no destination's gap exceeds the
accuracy leaves the fold accumulator untouched: no shift, no step call. -/
theorem equilibriateScan_noop (eqf : Bush → Nat → Bush) (accuracy : Int) (t : Bush)
    (h : ∀ d ∈ t.origin.dests,
      ¬((t.sharedNodes.getD d.1 default).getDifference > accuracy)) :
    equilibriateScan eqf accuracy t = (false, t) := by
  rw [equilibriateScan]
  suffices hgen : ∀ ds : List (Nat × Int),
      (∀ d ∈ ds, ¬((t.sharedNodes.getD d.1 default).getDifference > accuracy)) →
      ds.foldl (fun acc d =>
        if (acc.2.sharedNodes.getD d.1 default).getDifference > accuracy
        then (true, eqf acc.2 d.1) else acc) (false, t) = (false, t) by
    exact hgen t.origin.dests h
  intro ds
  induction ds with
  | nil => intro _; rfl
  | cons d ds ih =>
      intro hds
      have hd := hds d (List.mem_cons_self d ds)
      have hstep : (fun (acc : Bool × Bush) (d : Nat × Int) =>
          if (acc.2.sharedNodes.getD d.1 default).getDifference > accuracy
          then (true, eqf acc.2 d.1) else acc) (false, t) d = (false, t) := by
        show (if (t.sharedNodes.getD d.1 default).getDifference > accuracy
            then ((true : Bool), eqf t d.1) else ((false : Bool), t)) = ((false : Bool), t)
        rw [if_neg hd]
      have key : ∀ z : Bool × Bush, z = (false, t) →
          ds.foldl (fun acc d =>
            if (acc.2.sharedNodes.getD d.1 default).getDifference > accuracy
            then (true, eqf acc.2 d.1) else acc) z = (false, t) := by
        intro z hz
        rw [hz]
        exact ih (fun d2 hd2 => hds d2 (List.mem_cons_of_mem d hd2))
      exact key _ hstep

/-- If the first scan makes no shift, the scan loop stops at once with flag
`false`, for any fuel. -/
theorem eqFlowsAux_noop (eqf : Bush → Nat → Bush) (accuracy : Int) (t : Bush)
    (hscan : equilibriateScan eqf accuracy t = (false, t)) :
    ∀ fuel : Nat, equilibriateFlowsAux eqf accuracy fuel false t = (false, t)
  | 0 => rfl
  | fuel + 1 => by
      simp only [equilibriateFlowsAux, hscan]
      simp

/-- C9 amended: operations that read node ids through checked accesses fail
fast on an out-of-range id — `setUpGraph` at its distance-map lookup and at
its bush-list insertion, `sendInitialFlows`, `giveCount` and
`allOrNothingCost` — but `equilibriateFlows` and `maxDifference` read
destination ids unchecked and return normally (the out-of-range read
yields the default node, whose gap 0 triggers no step), instead of
failing. -/
theorem boundsCheck_amended :
    (∀ (graph : Array NetEdge) (o : Origin) (dm : Array (Option Nat)) (numV d : Nat)
        (x : Int) (ds : List (Nat × Int)), o.dests = (d, x) :: ds → dm.size ≤ d →
        isErr (setUpGraph graph o dm numV) = true) ∧
    (∀ (e : NetEdge) (o : Origin) (dm : Array (Option Nat)) (numV fp tp : Nat),
        o.dests = [] → atArr dm e.toNode = Except.ok (some tp) →
        atArr dm e.fromNode = Except.ok (some fp) → fp < tp → numV ≤ e.toNode →
        isErr (setUpGraph #[e] o dm numV) = true) ∧
    (∀ (s : Bush) (d : Nat) (x : Int) (ds : List (Nat × Int)),
        s.origin.dests = (d, x) :: ds → s.origin.origin < s.sharedNodes.size →
        s.sharedNodes.size ≤ d → isErr (sendInitialFlows s) = true) ∧
    (∀ (s : Bush) (v : Nat) (vs : List Nat), s.topologicalOrdering = v :: vs →
        s.sharedNodes.size ≤ v → isErr (giveCount s).1 = true) ∧
    (∀ s : Bush, s.sharedNodes.size ≤ s.origin.origin →
        isErr (allOrNothingCost s).1 = true) ∧
    (∀ (eqf : Bush → Nat → Bush) (accuracy : Int) (fuel : Nat) (s : Bush),
        0 ≤ accuracy → (∀ d ∈ s.origin.dests, s.sharedNodes.size ≤ d.1) →
        equilibriateFlows eqf accuracy fuel s = (false, buildTrees s)) ∧
    (∀ (s : Bush) (d : Nat) (x : Int), s.origin.dests = [(d, x)] →
        s.sharedNodes.size ≤ d → (maxDifference s).1 = 0) := by
  refine ⟨?_, ?_, ?_, ?_, ?_, ?_, ?_⟩
  · intro graph o dm numV d x ds hdests hd
    have h1 : unreachableDiags dm o.dests = Except.error "vector index out of range" := by
      rw [hdests, unreachableDiags, atArr_oob hd]
      rfl
    show isErr ((unreachableDiags dm o.dests).bind _) = true
    rw [h1]
    rfl
  · intro e o dm numV fp tp hdests hto hfrom hlt hnv
    have h1 : unreachableDiags dm o.dests = Except.ok [] := by rw [hdests]; rfl
    have hnlt : ¬(e.toNode < (Array.mkArray numV (#[] : Array BushEdge)).size) := by
      rw [Array.size_mkArray]
      exact Nat.not_lt.2 hnv
    have hadd : addBushEdge (Array.mkArray numV #[]) e.toNode ⟨0, e.fromNode, 0⟩
        = Except.error "vector index out of range" := by
      rw [addBushEdge, dif_neg hnlt]
    have h2 : setUpEdges dm [(0, e)] (Array.mkArray numV #[])
        = Except.error "vector index out of range" := by
      rw [setUpEdges]
      show ((atArr dm e.toNode).bind _) = _
      rw [hto]
      show ((atArr dm e.fromNode).bind _) = _
      rw [hfrom]
      show (if fp < tp then do
          let b2 ← addBushEdge (Array.mkArray numV #[]) e.toNode ⟨0, e.fromNode, 0⟩
          setUpEdges dm [] b2
        else setUpEdges dm [] (Array.mkArray numV #[]))
        = Except.error "vector index out of range"
      rw [if_pos hlt, hadd]
      rfl
    show isErr ((unreachableDiags dm o.dests).bind _) = true
    rw [h1]
    show isErr ((setUpEdges dm (#[e].toList.enum) (Array.mkArray numV #[])).bind _) = true
    have henum : (#[e] : Array NetEdge).toList.enum = [(0, e)] := rfl
    rw [henum, h2]
    rfl
  · intro s d x ds hdests ho hd
    rw [sendInitialFlows, atArr_lt ho default]
    show isErr (sendFlowsGo s s.origin.dests) = true
    rw [hdests, sendFlowsGo, atArr_oob hd]
    rfl
  · intro s v vs hord hv
    have hszB : (buildTrees s).sharedNodes.size ≤ v := by
      rw [buildTrees_nodes_size]
      exact hv
    have hordB : (buildTrees s).topologicalOrdering = v :: vs := by
      rw [buildTrees_ordering]
      exact hord
    show isErr (match (buildTrees s).topologicalOrdering with
        | [] => Except.ok 0
        | x :: xs => do
            let n ← atArr (buildTrees s).sharedNodes x
            runLoop (buildTrees s).sharedNodes n.maxDist 0 xs) = true
    rw [hordB]
    show isErr (do
        let n ← atArr (buildTrees s).sharedNodes v
        runLoop (buildTrees s).sharedNodes n.maxDist 0 vs) = true
    rw [atArr_oob hszB]
    rfl
  · intro s ho
    have : (buildTrees s).sharedNodes.size ≤ (buildTrees s).origin.origin := by
      rw [buildTrees_nodes_size, buildTrees_origin]; exact ho
    show isErr ((atArr (buildTrees s).sharedNodes (buildTrees s).origin.origin).bind _) = true
    rw [atArr_oob this]
    rfl
  · intro eqf accuracy fuel s hacc hoob
    have hng : ∀ d ∈ (buildTrees s).origin.dests,
        ¬(((buildTrees s).sharedNodes.getD d.1 default).getDifference > accuracy) := by
      intro d hd
      rw [buildTrees_origin] at hd
      have h0 : (buildTrees s).sharedNodes.getD d.1 default = default := by
        refine getD_oob ?_ _
        rw [buildTrees_nodes_size]
        exact hoob d hd
      rw [h0]
      show ¬((default : BushNode).getDifference > accuracy)
      have h1 : (default : BushNode).getDifference = 0 := rfl
      rw [h1]
      exact not_lt.2 hacc
    rw [equilibriateFlows]
    exact eqFlowsAux_noop eqf accuracy (buildTrees s)
      (equilibriateScan_noop eqf accuracy (buildTrees s) hng) fuel
  · intro s d x hdests hd
    show (buildTrees s).origin.dests.foldl _ 0 = 0
    rw [buildTrees_origin, hdests]
    have h0 : (buildTrees s).sharedNodes.getD d default = default := by
      refine getD_oob ?_ _
      rw [buildTrees_nodes_size]; exact hd
    rw [Array.getD_eq_get?] at h0
    have h1 : (default : BushNode).getDifference = 0 := rfl
    simp [h0, h1]

/-- Witness for the amended C9 on concrete out-of-range inputs: both
`setUpGraph` checked sites, `sendInitialFlows`, `giveCount` and
`allOrNothingCost` error, while `equilibriateFlows` and `maxDifference`
return normally. -/
theorem boundsCheck_amended_witness :
    isErr (setUpGraph #[] ⟨0, [(5, 1)]⟩ #[some 0, some 1] 2) = true ∧
    isErr (setUpGraph #[⟨0, 1, 0, 1, fun _ => 1⟩] ⟨0, []⟩ #[some 0, some 1] 1) = true ∧
    isErr (sendInitialFlows oob2) = true ∧
    isErr (giveCount { oob2 with topologicalOrdering := [5] }).1 = true ∧
    isErr (allOrNothingCost oobRoot2).1 = true ∧
    equilibriateFlows (fun b _ => b) 0 3 oob2 = (false, buildTrees oob2) ∧
    (maxDifference oob2).1 = 0 :=
  ⟨boundsCheck_amended.1 #[] ⟨0, [(5, 1)]⟩ #[some 0, some 1] 2 5 1 [] rfl (by decide),
   boundsCheck_amended.2.1 ⟨0, 1, 0, 1, fun _ => 1⟩ ⟨0, []⟩ #[some 0, some 1] 1 0 1 rfl
     rfl rfl (by decide) (by decide),
   boundsCheck_amended.2.2.1 oob2 5 1 [] rfl (by decide) (by decide),
   boundsCheck_amended.2.2.2.1 { oob2 with topologicalOrdering := [5] } 5 [] rfl (by decide),
   boundsCheck_amended.2.2.2.2.1 oobRoot2 (by decide),
   boundsCheck_amended.2.2.2.2.2.1 (fun b _ => b) 0 3 oob2 (by decide) (by decide),
   boundsCheck_amended.2.2.2.2.2.2 oob2 5 1 rfl (by decide)⟩

/-! ## Claim C6: `topologicalSort` is a stable sort by max distance -/

theorem stInsert_perm (x : Int × Nat) : ∀ l : List (Int × Nat), (stInsert x l).Perm (x :: l)
  | [] => by simp [stInsert]
  | y :: ys => by
      rw [stInsert]
      by_cases hyx : y.1 < x.1
      · rw [if_pos hyx]
        exact ((stInsert_perm x ys).cons y).trans (List.Perm.swap x y ys)
      · rw [if_neg hyx]

theorem mem_stInsert {a x : Int × Nat} {l : List (Int × Nat)} :
    a ∈ stInsert x l ↔ a = x ∨ a ∈ l := by
  rw [(stInsert_perm x l).mem_iff]
  simp

theorem stInsert_pairwise {l : List (Int × Nat)} (x : Int × Nat)
    (h : l.Pairwise (fun a b => a.1 ≤ b.1)) :
    (stInsert x l).Pairwise (fun a b => a.1 ≤ b.1) := by
  induction l with
  | nil => simp [stInsert]
  | cons y ys ih =>
      rw [List.pairwise_cons] at h
      rw [stInsert]
      by_cases hyx : y.1 < x.1
      · rw [if_pos hyx, List.pairwise_cons]
        refine ⟨fun a ha => ?_, ih h.2⟩
        rcases mem_stInsert.1 ha with ha | ha
        · rw [ha]; exact le_of_lt hyx
        · exact h.1 a ha
      · rw [if_neg hyx, List.pairwise_cons]
        refine ⟨fun a ha => ?_, List.pairwise_cons.2 h⟩
        rcases List.mem_cons.1 ha with ha | ha
        · rw [ha]; exact not_lt.1 hyx
        · exact le_trans (not_lt.1 hyx) (h.1 a ha)

theorem stableSortKeys_perm : ∀ l : List (Int × Nat), (stableSortKeys l).Perm l
  | [] => List.Perm.refl _
  | x :: xs => by
      rw [stableSortKeys]
      exact (stInsert_perm x (stableSortKeys xs)).trans ((stableSortKeys_perm xs).cons x)

theorem stableSortKeys_pairwise :
    ∀ l : List (Int × Nat), (stableSortKeys l).Pairwise (fun a b => a.1 ≤ b.1)
  | [] => List.Pairwise.nil
  | x :: xs => by
      rw [stableSortKeys]
      exact stInsert_pairwise x (stableSortKeys_pairwise xs)

theorem sublist_stInsert_self (x : Int × Nat) : ∀ l : List (Int × Nat), l.Sublist (stInsert x l)
  | [] => by simp [stInsert]
  | y :: ys => by
      rw [stInsert]
      by_cases hyx : y.1 < x.1
      · rw [if_pos hyx]
        exact (sublist_stInsert_self x ys).cons₂ y
      · rw [if_neg hyx]
        exact (List.Sublist.refl _).cons x

theorem pair_sublist_stInsert (x v : Int × Nat) :
    ∀ l : List (Int × Nat), v ∈ l → ¬(v.1 < x.1) → [x, v].Sublist (stInsert x l)
  | [], hv, _ => absurd hv (List.not_mem_nil v)
  | y :: ys, hv, hnv => by
      rw [stInsert]
      by_cases hyx : y.1 < x.1
      · rw [if_pos hyx]
        have hv' : v ∈ ys := by
          rcases List.mem_cons.1 hv with h | h
          · exact absurd (h ▸ hyx) hnv
          · exact h
        exact (pair_sublist_stInsert x v ys hv' hnv).cons y
      · rw [if_neg hyx]
        exact (List.singleton_sublist.2 hv).cons₂ x

theorem pair_sublist_stableSortKeys {a b : Int × Nat} (hab : a.1 = b.1) :
    ∀ l : List (Int × Nat), [a, b].Sublist l → [a, b].Sublist (stableSortKeys l)
  | [], h => by simp at h
  | x :: xs, h => by
      rw [stableSortKeys]
      rcases List.sublist_cons_iff.1 h with h' | ⟨r, hr, hrs⟩
      · exact (pair_sublist_stableSortKeys hab xs h').trans
          (sublist_stInsert_self x (stableSortKeys xs))
      · have hax : a = x := (List.cons.injEq _ _ _ _ ▸ hr).1
        have hbr : b ∈ r := by
          have := (List.cons.injEq _ _ _ _ ▸ hr).2
          rw [← this]; simp
        have hbxs : b ∈ xs := hrs.mem hbr
        have hbsort : b ∈ stableSortKeys xs := (stableSortKeys_perm xs).mem_iff.2 hbxs
        have hnb : ¬(b.1 < x.1) := by
          rw [← hax, ← hab]; exact lt_irrefl a.1
        rw [hax]
        exact pair_sublist_stInsert x b (stableSortKeys xs) hbsort hnb

/-- C6: `topologicalSort` replaces the ordering with a permutation of it, in
non-decreasing max-distance order, and two nodes with equal max distance
keep their previous relative order. -/
theorem topologicalSort_spec (s : Bush) :
    ((topologicalSort s).topologicalOrdering).Perm s.topologicalOrdering ∧
    List.Pairwise
      (fun u v => (s.sharedNodes.getD u default).maxDist ≤
        (s.sharedNodes.getD v default).maxDist)
      (topologicalSort s).topologicalOrdering ∧
    (∀ u v, [u, v].Sublist s.topologicalOrdering →
      (s.sharedNodes.getD u default).maxDist = (s.sharedNodes.getD v default).maxDist →
      [u, v].Sublist (topologicalSort s).topologicalOrdering) := by
  set key := fun i => (s.sharedNodes.getD i default).maxDist with hkey
  have hmapmap : ∀ l : List Nat, (l.map (fun i => (key i, i))).map (·.2) = l := by
    intro l
    rw [List.map_map]
    exact List.map_id _
  have hnew : (topologicalSort s).topologicalOrdering =
      (stableSortKeys (s.topologicalOrdering.map (fun i => (key i, i)))).map (·.2) := rfl
  refine ⟨?_, ?_, ?_⟩
  · rw [hnew]
    have := (stableSortKeys_perm (s.topologicalOrdering.map (fun i => (key i, i)))).map (·.2)
    rwa [hmapmap] at this
  · rw [hnew, List.pairwise_map]
    refine List.Pairwise.imp_of_mem ?_
      (stableSortKeys_pairwise (s.topologicalOrdering.map (fun i => (key i, i))))
    intro a b ha hb hle
    have hfa : a.1 = key a.2 := by
      have := (stableSortKeys_perm _).mem_iff.1 ha
      obtain ⟨i, _, hi⟩ := List.mem_map.1 this
      rw [← hi]
    have hfb : b.1 = key b.2 := by
      have := (stableSortKeys_perm _).mem_iff.1 hb
      obtain ⟨i, _, hi⟩ := List.mem_map.1 this
      rw [← hi]
    show key a.2 ≤ key b.2
    rw [← hfa, ← hfb]
    exact hle
  · intro u v hsub heq
    rw [hnew]
    have h1 : [(key u, u), (key v, v)].Sublist
        (s.topologicalOrdering.map (fun i => (key i, i))) := by
      have := hsub.map (fun i => (key i, i))
      simpa using this
    have h2 := pair_sublist_stableSortKeys (a := (key u, u)) (b := (key v, v)) heq _ h1
    have := h2.map (·.2)
    simpa using this

/-- Witness for C6: on `tie4` (keys 3, 1, 3, 1 over ordering [0,1,2,3]) the
sort yields a permutation, sortedness, and keeps the tied pair (1, 3) in
order. -/
theorem topologicalSort_spec_witness :
    ((topologicalSort tie4).topologicalOrdering).Perm tie4.topologicalOrdering ∧
    [1, 3].Sublist (topologicalSort tie4).topologicalOrdering :=
  ⟨(topologicalSort_spec tie4).1,
   (topologicalSort_spec tie4).2.2 1 3 (by decide) (by decide)⟩

/-! ## Claim C7: what `giveCount` counts -/

/-- The fused run loop, on in-range ids, computes its pure key-list
counterpart. -/
theorem runLoop_ok (ns : Array BushNode) :
    ∀ (l : List Nat) (d : Int) (acc : Nat), (∀ x ∈ l, x < ns.size) →
      runLoop ns d acc l =
        Except.ok (acc + runPure d (l.map (fun i => (ns.getD i default).maxDist)))
  | [], d, acc, _ => by simp [runLoop, runPure]
  | x :: xs, d, acc, h => by
      have hx : x < ns.size := h x (by simp)
      have hrest : ∀ y ∈ xs, y < ns.size := fun y hy => h y (by simp [hy])
      rw [runLoop, atArr_lt hx default]
      show (if (ns.getD x default).maxDist = d then runLoop ns d (acc + 1) xs
            else runLoop ns (ns.getD x default).maxDist acc xs) = _
      by_cases hd : (ns.getD x default).maxDist = d
      · rw [if_pos hd, runLoop_ok ns xs d (acc + 1) hrest]
        simp only [List.map_cons, runPure, hd]
        simp [Nat.add_assoc]
      · rw [if_neg hd]
        rw [runLoop_ok ns xs (ns.getD x default).maxDist acc hrest]
        simp only [List.map_cons, runPure]
        rw [if_neg hd]

/-- The run scan counts exactly the adjacent equal-key positions. -/
theorem runPure_eq_adjCount : ∀ (d : Int) (l : List Int), runPure d l = adjCount (d :: l)
  | _, [] => rfl
  | d, k :: ks => by
      rw [runPure, adjCount]
      by_cases h : k = d
      · rw [if_pos h, if_pos h.symm, runPure_eq_adjCount d ks, h]
      · rw [if_neg h, if_neg (fun hdk => h hdk.symm), runPure_eq_adjCount k ks]
        simp

/-- C7 amended: `giveCount` rebuilds the trees and returns the number of
adjacent positions of the topological ordering whose nodes share the same
max distance. -/
theorem giveCount_adjCount (s : Bush)
    (h : ∀ i ∈ (buildTrees s).topologicalOrdering, i < s.sharedNodes.size) :
    (giveCount s).1 = Except.ok (adjCount (orderingKeys (buildTrees s))) := by
  have hsz : (buildTrees s).sharedNodes.size = s.sharedNodes.size := buildTrees_nodes_size s
  show (match (buildTrees s).topologicalOrdering with
        | [] => Except.ok 0
        | x :: xs => do
            let n ← atArr (buildTrees s).sharedNodes x
            runLoop (buildTrees s).sharedNodes n.maxDist 0 xs) =
      Except.ok (adjCount (orderingKeys (buildTrees s)))
  cases hord : (buildTrees s).topologicalOrdering with
  | nil => rw [orderingKeys, hord]; rfl
  | cons x xs =>
      have hx : x < (buildTrees s).sharedNodes.size := by
        rw [hsz]; exact h x (by rw [hord]; simp)
      have hrest : ∀ y ∈ xs, y < (buildTrees s).sharedNodes.size := fun y hy => by
        rw [hsz]; exact h y (by rw [hord]; simp [hy])
      show (do
          let n ← atArr (buildTrees s).sharedNodes x
          runLoop (buildTrees s).sharedNodes n.maxDist 0 xs) =
        Except.ok (adjCount (orderingKeys (buildTrees s)))
      rw [atArr_lt hx default]
      show runLoop (buildTrees s).sharedNodes
          ((buildTrees s).sharedNodes.getD x default).maxDist 0 xs = _
      rw [runLoop_ok _ xs _ 0 hrest, runPure_eq_adjCount, orderingKeys, hord]
      rw [List.map_cons]
      simp

/-- Witness for the amended C7 on the star network. -/
theorem giveCount_adjCount_witness :
    (giveCount star4).1 = Except.ok (adjCount (orderingKeys (buildTrees star4))) :=
  giveCount_adjCount star4 (by decide)

/-- Counterexample to C7 as stated: in `star4` after the tree rebuild, nodes
1, 2 and 3 all share max distance 1, so there are three node pairs with
equal max distance, yet `giveCount` returns 2 (the per-run `length − 1`
sums). -/
theorem giveCount_cex :
    (giveCount star4).1 = Except.ok 2 ∧
    pairCount (orderingKeys (buildTrees star4)) = 3 ∧
    (giveCount star4).1 ≠ Except.ok (pairCount (orderingKeys (buildTrees star4))) :=
  ⟨by decide, by decide, by decide⟩

/-! ## Claim C3: repeating `buildTrees` -/

theorem scanIn_congr (g : Array NetEdge) {ns1 ns2 : Array BushNode} :
    ∀ es : List BushEdge,
      (∀ e ∈ es, ns1.getD e.fromNode default = ns2.getD e.fromNode default) →
      scanIn g ns1 es = scanIn g ns2 es
  | [], _ => rfl
  | e :: es, h => by
      have hrec := scanIn_congr g es (fun x hx => h x (by simp [hx]))
      simp only [scanIn]
      rw [hrec, h e (by simp)]

theorem flagIdxs_congr {ns1 ns2 : Array BushNode} (m : Int) (es : List BushEdge)
    (h : ∀ e ∈ es, ns1.getD e.fromNode default = ns2.getD e.fromNode default) :
    flagIdxs ns1 m es = flagIdxs ns2 m es := by
  unfold flagIdxs
  congr 1
  apply List.filter_congr
  intro p hp
  have hp2 : p.2 ∈ es := by
    have := List.mem_map_of_mem Prod.snd hp
    rwa [List.enum_map_snd] at this
  rw [h p.2 hp2]

theorem scanIn_eq_none_iff {g : Array NetEdge} {ns : Array BushNode} :
    ∀ {es : List BushEdge}, scanIn g ns es = none ↔ es = []
  | [] => by simp [scanIn]
  | e :: es => by
      constructor
      · intro h
        exfalso
        rw [scanIn] at h
        cases hs : scanIn g ns es with
        | none => rw [hs] at h; simp at h
        | some r =>
            rcases r with ⟨mn', i', mx'⟩
            rw [hs] at h
            dsimp only at h
            by_cases hle :
              (ns.getD e.fromNode default).minDist + edgeLen g e ≤ mn'
            · rw [if_pos hle] at h; simp at h
            · rw [if_neg hle] at h; simp at h
      · intro h; simp at h

theorem buildStep_of_none {g : Array NetEdge} {bsh : Array (Array BushEdge)}
    {st : Array BushNode × List (Nat × Nat)} {id : Nat}
    (hs : scanIn g st.1 ((bsh.getD id #[]).toList) = none) :
    buildStep g bsh st id = st := by
  unfold buildStep
  dsimp only
  rw [hs]

theorem buildStep_of_some {g : Array NetEdge} {bsh : Array (Array BushEdge)}
    {p : Array BushNode × List (Nat × Nat)} {id : Nat} {mn mx : Int} {mi : Nat}
    (hs : scanIn g p.1 ((bsh.getD id #[]).toList) = some (mn, mi, mx)) :
    buildStep g bsh p id =
      (p.1.setD id ⟨mn, mx, some mi⟩,
        p.2 ++ (flagIdxs p.1 mx ((bsh.getD id #[]).toList)).map (fun i => (id, i))) := by
  unfold buildStep
  dsimp only
  rw [hs]

theorem buildStep_getD_ne {g : Array NetEdge} {bsh : Array (Array BushEdge)}
    {st : Array BushNode × List (Nat × Nat)} {x v : Nat} (hxv : x ≠ v) (d : BushNode) :
    (buildStep g bsh st x).1.getD v d = st.1.getD v d := by
  cases hs : scanIn g st.1 ((bsh.getD x #[]).toList) with
  | none => rw [buildStep_of_none hs]
  | some r =>
      rcases r with ⟨mn, mi, mx⟩
      rw [buildStep_of_some hs]
      exact getD_setD_ne hxv _ _

/-- A node with no in-edges keeps its state across the `buildTrees` fold. -/
theorem foldl_buildStep_getD_empty (g : Array NetEdge) (bsh : Array (Array BushEdge))
    (d : BushNode) :
    ∀ (l : List Nat) (st : Array BushNode × List (Nat × Nat)) (v : Nat),
      (bsh.getD v #[]).toList = [] →
      (l.foldl (buildStep g bsh) st).1.getD v d = st.1.getD v d
  | [], _, _, _ => rfl
  | x :: l, st, v, hes => by
      rw [List.foldl_cons, foldl_buildStep_getD_empty g bsh d l _ v hes]
      by_cases hxv : x = v
      · subst hxv
        rw [buildStep_of_none (by rw [hes]; rfl)]
      · exact buildStep_getD_ne hxv d

/-- Determinism of the `buildTrees` fold: two runs whose starting arrays
agree on the already-settled nodes (`done`) and on the in-edge-free nodes
produce the same distances on every processed node and append the same
changes, provided every read is of a settled or earlier-processed node. -/
theorem foldl_buildStep_determinism (g : Array NetEdge) (bsh : Array (Array BushEdge)) :
    ∀ (rest done : List Nat) (ns1 ns2 : Array BushNode) (ch1 ch2 : List (Nat × Nat)),
      ns1.size = ns2.size →
      rest.Nodup →
      (∀ x ∈ rest, x ∉ done) →
      (∀ x ∈ rest, x < ns1.size) →
      (∀ k, k < rest.length →
        ∀ e ∈ (bsh.getD (rest.getD k 0) #[]).toList, e.fromNode ∈ done ++ rest.take k) →
      (∀ v ∈ done, ns1.getD v default = ns2.getD v default) →
      (∀ v ∈ rest, (bsh.getD v #[]).toList = [] →
        ns1.getD v default = ns2.getD v default) →
      (∀ v ∈ done ++ rest,
        (rest.foldl (buildStep g bsh) (ns1, ch1)).1.getD v default =
          (rest.foldl (buildStep g bsh) (ns2, ch2)).1.getD v default) ∧
      ∃ D, (rest.foldl (buildStep g bsh) (ns1, ch1)).2 = ch1 ++ D ∧
        (rest.foldl (buildStep g bsh) (ns2, ch2)).2 = ch2 ++ D
  | [], done, ns1, ns2, ch1, ch2, _, _, _, _, _, hdone, _ =>
      ⟨fun v hv => hdone v (by simpa using hv), ⟨[], by simp, by simp⟩⟩
  | v :: rest', done, ns1, ns2, ch1, ch2, hsz, hnodup, hdisj, hbound, hsrc, hdone, hempty => by
      have hvrest : v ∉ rest' := (List.nodup_cons.1 hnodup).1
      have hnodup' : rest'.Nodup := (List.nodup_cons.1 hnodup).2
      have hsrc0 : ∀ e ∈ (bsh.getD v #[]).toList, e.fromNode ∈ done := by
        intro e he
        have := hsrc 0 (by simp) e he
        simpa using this
      have hagree : ∀ e ∈ (bsh.getD v #[]).toList,
          ns1.getD e.fromNode default = ns2.getD e.fromNode default :=
        fun e he => hdone e.fromNode (hsrc0 e he)
      have hscan := scanIn_congr g ((bsh.getD v #[]).toList) hagree
      have hdisj' : ∀ x ∈ rest', x ∉ done ++ [v] := by
        intro x hx
        simp only [List.mem_append, List.mem_singleton]
        rintro (h | h)
        · exact hdisj x (by simp [hx]) h
        · exact hvrest (h ▸ hx)
      have hsrc' : ∀ k, k < rest'.length →
          ∀ e ∈ (bsh.getD (rest'.getD k 0) #[]).toList,
            e.fromNode ∈ (done ++ [v]) ++ rest'.take k := by
        intro k hk e he
        have := hsrc (k + 1) (by simpa using Nat.succ_lt_succ hk) e he
        simp only [List.getD_cons_succ] at this
        simpa [List.append_assoc] using this
      have hmemconv : ∀ w, (w ∈ (done ++ [v]) ++ rest') ↔ (w ∈ done ++ v :: rest') := by
        intro w
        simp [List.mem_append, List.mem_cons, or_assoc]
      cases hs : scanIn g ns1 ((bsh.getD v #[]).toList) with
      | none =>
          have hes : (bsh.getD v #[]).toList = [] := scanIn_eq_none_iff.1 hs
          have hs2 : scanIn g ns2 ((bsh.getD v #[]).toList) = none := by
            rw [← hscan]; exact hs
          rw [List.foldl_cons, List.foldl_cons, buildStep_of_none hs, buildStep_of_none hs2]
          obtain ⟨c1, c2⟩ := foldl_buildStep_determinism g bsh rest' (done ++ [v]) ns1 ns2
            ch1 ch2 hsz hnodup' hdisj'
            (fun x hx => hbound x (by simp [hx])) hsrc'
            (by
              intro w hw
              rcases List.mem_append.1 hw with hw | hw
              · exact hdone w hw
              · rw [List.mem_singleton.1 hw]
                exact hempty v (by simp) hes)
            (fun w hw hwe => hempty w (by simp [hw]) hwe)
          exact ⟨fun w hw => c1 w ((hmemconv w).2 hw), c2⟩
      | some r =>
          rcases r with ⟨mn, mi, mx⟩
          have hs2 : scanIn g ns2 ((bsh.getD v #[]).toList) = some (mn, mi, mx) := by
            rw [← hscan]; exact hs
          have hflag := flagIdxs_congr mx ((bsh.getD v #[]).toList) hagree
          have hvlt : v < ns1.size := hbound v (by simp)
          rw [List.foldl_cons, List.foldl_cons,
            buildStep_of_some (p := (ns1, ch1)) hs, buildStep_of_some (p := (ns2, ch2)) hs2]
          dsimp only
          rw [hflag]
          obtain ⟨c1, c2⟩ := foldl_buildStep_determinism g bsh rest' (done ++ [v])
            (ns1.setD v ⟨mn, mx, some mi⟩) (ns2.setD v ⟨mn, mx, some mi⟩)
            (ch1 ++ (flagIdxs ns2 mx ((bsh.getD v #[]).toList)).map (fun i => (v, i)))
            (ch2 ++ (flagIdxs ns2 mx ((bsh.getD v #[]).toList)).map (fun i => (v, i)))
            (by rw [Array.size_setD, Array.size_setD, hsz])
            hnodup' hdisj'
            (fun x hx => by rw [Array.size_setD]; exact hbound x (by simp [hx]))
            hsrc'
            (by
              intro w hw
              rcases List.mem_append.1 hw with hw | hw
              · rw [getD_setD_ne (fun h => hdisj v (by simp) (by rw [h]; exact hw)) _ _,
                  getD_setD_ne (fun h => hdisj v (by simp) (by rw [h]; exact hw)) _ _]
                exact hdone w hw
              · rw [List.mem_singleton.1 hw]
                rw [getD_setD_self hvlt, getD_setD_self (hsz ▸ hvlt)])
            (by
              intro w hw hwe
              have hwv : v ≠ w := fun h => hvrest (h ▸ hw)
              rw [getD_setD_ne hwv _ _, getD_setD_ne hwv _ _]
              exact hempty w (by simp [hw]) hwe)
          refine ⟨fun w hw => c1 w ((hmemconv w).2 hw), ?_⟩
          obtain ⟨D, hD1, hD2⟩ := c2
          exact ⟨(flagIdxs ns2 mx ((bsh.getD v #[]).toList)).map (fun i => (v, i)) ++ D,
            by rw [hD1, List.append_assoc], by rw [hD2, List.append_assoc]⟩

/-- The max distance computed by the in-edge scan bounds every candidate. -/
theorem scanIn_le_max (g : Array NetEdge) (ns : Array BushNode) :
    ∀ (es : List BushEdge) (mn mx : Int) (mi : Nat),
      scanIn g ns es = some (mn, mi, mx) →
      ∀ e ∈ es, (ns.getD e.fromNode default).maxDist + edgeLen g e ≤ mx
  | [], mn, mx, mi, h => by simp [scanIn] at h
  | e :: es, mn, mx, mi, h => by
      rw [scanIn] at h
      cases hs : scanIn g ns es with
      | none =>
          rw [hs] at h
          simp only [Option.some.injEq, Prod.mk.injEq] at h
          obtain ⟨h1, h2, h3⟩ := h
          intro x hx
          rcases List.mem_cons.1 hx with hx | hx
          · rw [hx, h3]
          · exact absurd (scanIn_eq_none_iff.1 hs ▸ hx) (List.not_mem_nil x)
      | some r =>
          rcases r with ⟨mn', i', mx'⟩
          rw [hs] at h
          dsimp only at h
          have hrec := scanIn_le_max g ns es mn' mx' i' hs
          by_cases hle : (ns.getD e.fromNode default).minDist + edgeLen g e ≤ mn'
          · rw [if_pos hle] at h
            simp only [Option.some.injEq, Prod.mk.injEq] at h
            obtain ⟨h1, h2, h3⟩ := h
            intro x hx
            rcases List.mem_cons.1 hx with hx | hx
            · rw [hx, ← h3]; exact le_max_left _ _
            · exact le_trans (hrec x hx) (le_trans (le_max_right _ _) (le_of_eq h3))
          · rw [if_neg hle] at h
            simp only [Option.some.injEq, Prod.mk.injEq] at h
            obtain ⟨h1, h2, h3⟩ := h
            intro x hx
            rcases List.mem_cons.1 hx with hx | hx
            · rw [hx, ← h3]; exact le_max_left _ _
            · exact le_trans (hrec x hx) (le_trans (le_max_right _ _) (le_of_eq h3))

/-- No in-edge is flagged when every source's max distance is strictly below
the bound. -/
theorem flagIdxs_nil_of_lt {ns : Array BushNode} {m : Int} {es : List BushEdge}
    (h : ∀ e ∈ es, (ns.getD e.fromNode default).maxDist < m) :
    flagIdxs ns m es = [] := by
  unfold flagIdxs
  rw [List.filter_eq_nil_iff.2 ?_]
  · rfl
  · intro p hp
    have hp2 : p.2 ∈ es := by
      have := List.mem_map_of_mem Prod.snd hp
      rwa [List.enum_map_snd] at this
    have hlt := h p.2 hp2
    rw [Array.getD_eq_get?] at hlt
    simp [hlt]

/-- With strictly positive in-edge lengths, the `buildTrees` fold flags
nothing. -/
theorem foldl_buildStep_changes_nil (g : Array NetEdge) (bsh : Array (Array BushEdge)) :
    ∀ (l : List Nat) (ns : Array BushNode) (ch : List (Nat × Nat)),
      (∀ v ∈ l, ∀ e ∈ (bsh.getD v #[]).toList, 0 < edgeLen g e) →
      (l.foldl (buildStep g bsh) (ns, ch)).2 = ch
  | [], _, _, _ => rfl
  | v :: l, ns, ch, h => by
      rw [List.foldl_cons]
      cases hs : scanIn g ns ((bsh.getD v #[]).toList) with
      | none =>
          rw [buildStep_of_none hs]
          exact foldl_buildStep_changes_nil g bsh l ns ch (fun x hx => h x (by simp [hx]))
      | some r =>
          rcases r with ⟨mn, mi, mx⟩
          rw [buildStep_of_some (p := (ns, ch)) hs]
          have hflag : flagIdxs ns mx ((bsh.getD v #[]).toList) = [] := by
            apply flagIdxs_nil_of_lt
            intro e he
            have hcand := scanIn_le_max g ns _ mn mx mi hs e he
            have hpos := h v (by simp) e he
            exact lt_of_lt_of_le (Int.lt_add_of_pos_right _ hpos) hcand
          rw [hflag]
          simp only [List.map_nil, List.append_nil]
          exact foldl_buildStep_changes_nil g bsh l _ ch (fun x hx => h x (by simp [hx]))

theorem setD_oob {a : Array α} {i : Nat} (h : a.size ≤ i) (v : α) : a.setD i v = a := by
  simp [Array.setD, Nat.not_lt.2 h]

theorem getElem_eq_getD {a : Array α} {i : Nat} (h : i < a.size) (d : α) :
    a[i] = a.getD i d := by
  rw [getD_lt h d]
  rfl

theorem setOriginDist_size (ns : Array BushNode) (o : Nat) :
    (setOriginDist ns o).size = ns.size :=
  Array.size_setD _ _ _

theorem setOriginDist_getD (ns : Array BushNode) (o : Nat) :
    (setOriginDist ns o).getD o default =
      { ns.getD o default with minDist := 0, maxDist := 0 } := by
  by_cases h : o < ns.size
  · exact getD_setD_self h _ _
  · unfold setOriginDist
    rw [setD_oob (Nat.not_lt.1 h), getD_oob (Nat.not_lt.1 h)]
    rfl

theorem setOriginDist_getD_ne (ns : Array BushNode) {o v : Nat} (h : o ≠ v) (d : BushNode) :
    (setOriginDist ns o).getD v d = ns.getD v d :=
  getD_setD_ne h _ _

/-- C3 amended: when the stored ordering starts at the origin, has no
duplicates and in-range ids, and every in-edge's source precedes its node in
the ordering, two consecutive `buildTrees` calls produce identical node
states (min/max distances and predecessors) and identical pending-changes
lists; if moreover every bush edge has strictly positive length, the pending
list after the second call is empty. -/
theorem buildTrees_twice (s : Bush) (rest : List Nat)
    (hord : s.topologicalOrdering = s.origin.origin :: rest)
    (hnodup : (s.origin.origin :: rest).Nodup)
    (hsize : ∀ i ∈ s.topologicalOrdering, i < s.sharedNodes.size)
    (hsrc : ∀ k, k < rest.length →
      ∀ e ∈ (s.bush.getD (rest.getD k 0) #[]).toList,
        e.fromNode ∈ s.origin.origin :: rest.take k) :
    (buildTrees (buildTrees s)).sharedNodes = (buildTrees s).sharedNodes ∧
    (buildTrees (buildTrees s)).changes = (buildTrees s).changes ∧
    ((∀ v ∈ s.topologicalOrdering, ∀ e ∈ (s.bush.getD v #[]).toList,
        0 < edgeLen s.graph e) →
      (buildTrees (buildTrees s)).changes = []) := by
  have hdrop : s.topologicalOrdering.drop 1 = rest := by rw [hord]; rfl
  have honotin : s.origin.origin ∉ rest := (List.nodup_cons.1 hnodup).1
  have hrestnodup : rest.Nodup := (List.nodup_cons.1 hnodup).2
  have h1 : (buildTrees s).sharedNodes =
      (rest.foldl (buildStep s.graph s.bush)
        (setOriginDist s.sharedNodes s.origin.origin, [])).1 := by
    show ((s.topologicalOrdering.drop 1).foldl (buildStep s.graph s.bush)
        (setOriginDist s.sharedNodes s.origin.origin, [])).1 = _
    rw [hdrop]
  have h1c : (buildTrees s).changes =
      (rest.foldl (buildStep s.graph s.bush)
        (setOriginDist s.sharedNodes s.origin.origin, [])).2 := by
    show ((s.topologicalOrdering.drop 1).foldl (buildStep s.graph s.bush)
        (setOriginDist s.sharedNodes s.origin.origin, [])).2 = _
    rw [hdrop]
  have h2 : (buildTrees (buildTrees s)).sharedNodes =
      (rest.foldl (buildStep s.graph s.bush)
        (setOriginDist (buildTrees s).sharedNodes s.origin.origin, [])).1 := by
    show ((s.topologicalOrdering.drop 1).foldl (buildStep s.graph s.bush)
        (setOriginDist (buildTrees s).sharedNodes s.origin.origin, [])).1 = _
    rw [hdrop]
  have h2c : (buildTrees (buildTrees s)).changes =
      (rest.foldl (buildStep s.graph s.bush)
        (setOriginDist (buildTrees s).sharedNodes s.origin.origin, [])).2 := by
    show ((s.topologicalOrdering.drop 1).foldl (buildStep s.graph s.bush)
        (setOriginDist (buildTrees s).sharedNodes s.origin.origin, [])).2 = _
    rw [hdrop]
  have hR1o : (buildTrees s).sharedNodes.getD s.origin.origin default =
      (setOriginDist s.sharedNodes s.origin.origin).getD s.origin.origin default := by
    rw [h1]
    exact foldl_buildStep_getD_notin _ _ _ rest _ _ honotin
  obtain ⟨c1, D, hD1, hD2⟩ := foldl_buildStep_determinism s.graph s.bush rest
    [s.origin.origin]
    (setOriginDist s.sharedNodes s.origin.origin)
    (setOriginDist (buildTrees s).sharedNodes s.origin.origin) [] []
    (by rw [setOriginDist_size, setOriginDist_size, buildTrees_nodes_size])
    hrestnodup
    (fun x hx => by
      simp only [List.mem_singleton]
      exact fun h => honotin (h ▸ hx))
    (fun x hx => by
      rw [setOriginDist_size]
      exact hsize x (by rw [hord]; simp [hx]))
    (fun k hk e he => hsrc k hk e he)
    (by
      intro v hv
      rw [List.mem_singleton] at hv
      subst hv
      rw [setOriginDist_getD, setOriginDist_getD, hR1o, setOriginDist_getD])
    (by
      intro v hv hve
      have hvo : s.origin.origin ≠ v := fun h => honotin (h ▸ hv)
      rw [setOriginDist_getD_ne _ hvo, setOriginDist_getD_ne _ hvo, h1,
        foldl_buildStep_getD_empty s.graph s.bush default rest _ v hve,
        setOriginDist_getD_ne _ hvo])
  refine ⟨?_, ?_, ?_⟩
  · apply Array.ext
    · simp [buildTrees_nodes_size]
    · intro i hi1 hi2
      rw [getElem_eq_getD hi1 default, getElem_eq_getD hi2 default]
      by_cases hmem : i ∈ s.topologicalOrdering
      · have hmem' : i ∈ [s.origin.origin] ++ rest := by
          rw [hord] at hmem
          simpa using hmem
        rw [h1, h2]
        exact (c1 i hmem').symm
      · have hinot : i ∉ rest := fun h => hmem (by rw [hord]; simp [h])
        have hio : s.origin.origin ≠ i := fun h => hmem (by rw [hord, ← h]; simp)
        rw [h1, h2, foldl_buildStep_getD_notin _ _ _ rest _ _ hinot,
          foldl_buildStep_getD_notin _ _ _ rest _ _ hinot,
          setOriginDist_getD_ne _ hio, setOriginDist_getD_ne _ hio, h1,
          foldl_buildStep_getD_notin _ _ _ rest _ _ hinot,
          setOriginDist_getD_ne _ hio]
  · rw [h1c, h2c, hD1, hD2]
  · intro hpos
    rw [h2c]
    exact foldl_buildStep_changes_nil s.graph s.bush rest _ []
      (fun v hv e he => hpos v (by rw [hord]; simp [hv]) e he)

/-- Counterexample to C3 as stated: with a zero-length bush edge
(`zeroLen2`), the second `buildTrees` call still flags that edge, so the
pending list is not empty; and with a stale ordering (`stale3`, whose node
2 reads the later-ordered node 1), the two calls disagree on the computed
distances. -/
theorem buildTrees_twice_cex :
    (buildTrees (buildTrees zeroLen2)).changes ≠ [] ∧
    (buildTrees (buildTrees stale3)).sharedNodes ≠ (buildTrees stale3).sharedNodes :=
  ⟨by decide, by decide⟩

/-- Witness for the amended C3 on the star network. -/
theorem buildTrees_twice_witness :
    (buildTrees (buildTrees star4)).sharedNodes = (buildTrees star4).sharedNodes ∧
    (buildTrees (buildTrees star4)).changes = (buildTrees star4).changes ∧
    (buildTrees (buildTrees star4)).changes = [] :=
  ⟨(buildTrees_twice star4 [1, 2, 3] rfl (by decide) (by decide) (by decide)).1,
   (buildTrees_twice star4 [1, 2, 3] rfl (by decide) (by decide) (by decide)).2.1,
   (buildTrees_twice star4 [1, 2, 3] rfl (by decide) (by decide) (by decide)).2.2 (by decide)⟩

/-! ## Claim C5: restructuring (`updateEdges`) -/

theorem list_set_self (l : List α) (i : Nat) (hi : i < l.length) : l.set i l[i] = l := by
  apply List.ext_getElem
  · simp
  · intro n h1 h2
    by_cases hn : i = n
    · subst hn; simp
    · rw [List.getElem_set_ne hn]

theorem list_swap_perm [DecidableEq α] (l : List α) (i j : Nat) (hi : i < l.length)
    (hj : j < l.length) :
    ((l.set i l[j]).set j l[i]).Perm l := by
  by_cases hij : i = j
  · subst hij
    rw [List.set_set, list_set_self l i hi]
  · rw [List.perm_iff_count]
    intro b
    have hj' : j < (l.set i l[j]).length := by simpa using hj
    rw [List.count_set _ _ _ _ hj', List.count_set _ _ _ _ hi,
      List.getElem_set_ne hij hj']
    have h1 : l[i] = b → 1 ≤ l.count b := by
      intro h
      exact List.count_pos_iff.2 (h ▸ List.getElem_mem hi)
    have h2 : l[j] = b → 1 ≤ l.count b := by
      intro h
      exact List.count_pos_iff.2 (h ▸ List.getElem_mem hj)
    simp only [beq_iff_eq]
    by_cases hb1 : l[i] = b <;> by_cases hb2 : l[j] = b
    · have k1 := h1 hb1
      rw [if_pos hb1, if_pos hb2]
      omega
    · have k1 := h1 hb1
      rw [if_pos hb1, if_neg hb2]
      omega
    · have k2 := h2 hb2
      rw [if_neg hb1, if_pos hb2]
      omega
    · rw [if_neg hb1, if_neg hb2]
      omega

theorem toList_setD {a : Array α} {i : Nat} (h : i < a.size) (v : α) :
    (a.setD i v).toList = a.toList.set i v := by
  rw [← set_eq_setD h, Array.toList_set]

theorem arrSwap_size [Inhabited α] (a : Array α) (i j : Nat) :
    (arrSwap a i j).size = a.size := by
  unfold arrSwap
  rw [Array.size_setD, Array.size_setD]

theorem arrSwap_getD_ne [Inhabited α] {a : Array α} {i j p : Nat} (hpi : p ≠ i) (hpj : p ≠ j)
    (d : α) : (arrSwap a i j).getD p d = a.getD p d := by
  unfold arrSwap
  rw [getD_setD_ne (Ne.symm hpj), getD_setD_ne (Ne.symm hpi)]

theorem arrSwap_getD_fst [Inhabited α] {a : Array α} {i j : Nat} (hi : i < a.size) :
    (arrSwap a i j).getD i default = a.getD j default := by
  unfold arrSwap
  by_cases hij : j = i
  · subst hij
    rw [getD_setD_self (by simpa using hi)]
  · rw [getD_setD_ne hij, getD_setD_self hi]

theorem arrSwap_getD_snd [Inhabited α] {a : Array α} {i j : Nat}
    (hj : j < a.size) : (arrSwap a i j).getD j default = a.getD i default := by
  unfold arrSwap
  rw [getD_setD_self (by simpa using hj)]

theorem arrSwap_perm [DecidableEq α] [Inhabited α] {a : Array α} {i j : Nat}
    (hi : i < a.size) (hj : j < a.size) :
    (arrSwap a i j).toList.Perm a.toList := by
  show ((a.setD i (a.getD j default)).setD j (a.getD i default)).toList.Perm a.toList
  have hi' : i < (a.toList).length := by rwa [Array.length_toList]
  have hj' : j < (a.toList).length := by rwa [Array.length_toList]
  have hgy : a.getD j default = (a.toList)[j] := by
    rw [getD_lt hj]
    exact (Array.getElem_toList hj).symm
  have hgx : a.getD i default = (a.toList)[i] := by
    rw [getD_lt hi]
    exact (Array.getElem_toList hi).symm
  have hj2 : j < (a.setD i (a.getD j default)).size := by simpa using hj
  rw [toList_setD hj2, toList_setD hi, hgy, hgx]
  exact list_swap_perm (a.toList) i j hi' hj'

theorem swapGo_size (sz : Nat) (a : Array BushEdge) :
    ∀ ms : List Nat, (swapGo sz a ms).size = a.size
  | [] => rfl
  | m :: ms => by
      rw [swapGo, arrSwap_size, swapGo_size sz a ms]

theorem swapGo_getD_untouched (sz : Nat) (a : Array BushEdge) :
    ∀ (ms : List Nat) (p : Nat), p < sz - ms.length → p ∉ ms →
      (swapGo sz a ms).getD p default = a.getD p default
  | [], _, _, _ => rfl
  | m :: ms, p, hp, hpm => by
      rw [swapGo, arrSwap_getD_ne ?_ (fun h => hpm (by simp [h])) default,
        swapGo_getD_untouched sz a ms p (by simp at hp ⊢; omega) (fun h => hpm (by simp [h]))]
      intro h
      rw [h] at hp
      simp at hp
      omega

theorem chain_head_bound :
    ∀ (m : Nat) (ms : List Nat) (sz : Nat), (m :: ms).Chain' (· < ·) →
      (∀ x ∈ m :: ms, x < sz) → m + ms.length < sz
  | m, [], sz, _, hb => by simpa using hb m (by simp)
  | m, m' :: ms, sz, hc, hb => by
      have h1 : m < m' := (List.chain'_cons.1 hc).1
      have h2 := chain_head_bound m' ms sz (List.chain'_cons.1 hc).2
        (fun x hx => hb x (by simp at hx ⊢; tauto))
      simp only [List.length_cons]
      omega

theorem chain_head_notin {m : Nat} {ms : List Nat} (hc : (m :: ms).Chain' (· < ·)) :
    m ∉ ms := by
  intro hm
  have hp := List.chain'_iff_pairwise.1 hc
  exact lt_irrefl m ((List.pairwise_cons.1 hp).1 m hm)

theorem swapGo_getD_tail (sz : Nat) (a : Array BushEdge) (hsz : a.size = sz) :
    ∀ (ms : List Nat), ms.Chain' (· < ·) → (∀ x ∈ ms, x < sz) →
      ∀ t, t < ms.length →
        (swapGo sz a ms).getD (sz - ms.length + t) default = a.getD (ms.getD t 0) default
  | [], _, _, t, ht => by simp at ht
  | m :: ms, hc, hb, t, ht => by
      have hinner : (swapGo sz a ms).size = sz := by rw [swapGo_size, hsz]
      have hbound := chain_head_bound m ms sz hc hb
      cases t with
      | zero =>
          have hk : sz - (m :: ms).length + 0 = sz - 1 - ms.length := by
            simp only [List.length_cons]
            omega
          rw [swapGo, hk]
          have hfst : sz - 1 - ms.length < (swapGo sz a ms).size := by
            rw [hinner]; omega
          rw [arrSwap_getD_fst hfst]
          rw [swapGo_getD_untouched sz a ms m (by omega) (chain_head_notin hc)]
          rfl
      | succ t' =>
          have ht' : t' < ms.length := by simpa using ht
          have hms : ms.length < sz := by omega
          have hk : sz - (m :: ms).length + (t' + 1) = sz - ms.length + t' := by
            simp only [List.length_cons]
            omega
          rw [swapGo, hk]
          rw [arrSwap_getD_ne (by omega) (by omega) default]
          rw [swapGo_getD_tail sz a hsz ms (List.chain'_cons'.1 hc).2
            (fun x hx => hb x (by simp [hx])) t' ht']
          rfl

theorem swapGo_perm (sz : Nat) (a : Array BushEdge) (hsz : a.size = sz) :
    ∀ ms : List Nat, (∀ x ∈ ms, x < sz) → (swapGo sz a ms).toList.Perm a.toList
  | [], _ => List.Perm.refl _
  | m :: ms, hb => by
      rw [swapGo]
      have hinner : (swapGo sz a ms).size = sz := by rw [swapGo_size, hsz]
      have hm : m < (swapGo sz a ms).size := by rw [hinner]; exact hb m (by simp)
      have hszpos : 0 < sz := Nat.lt_of_le_of_lt (Nat.zero_le _) (hb m (by simp))
      have hk : sz - 1 - ms.length < (swapGo sz a ms).size := by rw [hinner]; omega
      exact (arrSwap_perm hk hm).trans (swapGo_perm sz a hsz ms (fun x hx => hb x (by simp [hx])))

theorem getD_toList (a : Array α) (i : Nat) (d : α) : a.getD i d = a.toList.getD i d := by
  by_cases h : i < a.size
  · have h' : i < a.toList.length := by rwa [Array.length_toList]
    rw [getD_lt h, List.getD_eq_getElem?_getD, List.getElem?_eq_getElem h', Option.getD_some]
    exact (Array.getElem_toList h).symm
  · rw [getD_oob (Nat.not_lt.1 h), List.getD_eq_getElem?_getD, List.getElem?_eq_none,
      Option.getD_none]
    rw [Array.length_toList]
    exact Nat.not_lt.1 h

/-- One re-insertion step, written out. -/
theorem reinsertStep_eq (node : Nat) (s : Bush) (k : Nat) :
    reinsertStep node s k =
      { s with
        graph := swapNetEdge s.graph ((s.bush.getD node #[]).getD k default).eid
        bush :=
          (s.bush.setD node
              ((s.bush.getD node #[]).setD k
                { (s.bush.getD node #[]).getD k default with fromNode := node })).setD
            ((s.bush.getD node #[]).getD k default).fromNode
            (((s.bush.setD node
                ((s.bush.getD node #[]).setD k
                  { (s.bush.getD node #[]).getD k default with fromNode := node })).getD
                ((s.bush.getD node #[]).getD k default).fromNode #[]).push
              { (s.bush.getD node #[]).getD k default with fromNode := node }) } := rfl

/-- The re-insertion loop: each processed tail entry is direction-reversed
in place and its copy appended to its former source's in-edge list; the
underlying arcs are endpoint-swapped in order; nothing else changes. -/
theorem reinsert_fold_spec (node : Nat) :
    ∀ (ks : List Nat) (s : Bush),
      ks.Nodup →
      (∀ k ∈ ks, ((s.bush.getD node #[]).getD k default).fromNode ≠ node) →
      (∀ k ∈ ks, ((s.bush.getD node #[]).getD k default).fromNode < s.bush.size) →
      node < s.bush.size →
      (∀ w, w ≠ node →
        ((ks.foldl (reinsertStep node) s).bush.getD w #[]).toList =
          (s.bush.getD w #[]).toList ++
            ((ks.map (fun k => (s.bush.getD node #[]).getD k default)).filter
                (fun e => decide (e.fromNode = w))).map
              (fun e => { e with fromNode := node })) ∧
      ((ks.foldl (reinsertStep node) s).bush.getD node #[]).size
          = (s.bush.getD node #[]).size ∧
      (∀ p, p ∉ ks →
        ((ks.foldl (reinsertStep node) s).bush.getD node #[]).getD p default =
          (s.bush.getD node #[]).getD p default) ∧
      (ks.foldl (reinsertStep node) s).graph =
        (ks.map (fun k => (s.bush.getD node #[]).getD k default)).foldl
          (fun gr e => swapNetEdge gr e.eid) s.graph ∧
      (ks.foldl (reinsertStep node) s).sharedNodes = s.sharedNodes ∧
      (ks.foldl (reinsertStep node) s).topologicalOrdering = s.topologicalOrdering ∧
      (ks.foldl (reinsertStep node) s).changes = s.changes ∧
      (ks.foldl (reinsertStep node) s).origin = s.origin ∧
      (ks.foldl (reinsertStep node) s).bush.size = s.bush.size
  | [], s, _, _, _, _ =>
      ⟨fun w _ => by simp, rfl, fun p _ => rfl, rfl, rfl, rfl, rfl, rfl, rfl⟩
  | k :: ks, s, hnd, hself, hfrom, hnode => by
      have hknd : k ∉ ks := (List.nodup_cons.1 hnd).1
      have hnd' : ks.Nodup := (List.nodup_cons.1 hnd).2
      set a := s.bush.getD node #[] with ha
      set e0 := a.getD k default with he0
      set ee : BushEdge := { e0 with fromNode := node } with hee
      have hfn : e0.fromNode ≠ node := hself k (by simp)
      have hfnlt : e0.fromNode < s.bush.size := hfrom k (by simp)
      set s' := reinsertStep node s k with hs'
      have hb1node : (s.bush.setD node (a.setD k ee)).getD node #[] = a.setD k ee :=
        getD_setD_self hnode _ _
      have hsbush : s'.bush =
          (s.bush.setD node (a.setD k ee)).setD e0.fromNode
            (((s.bush.setD node (a.setD k ee)).getD e0.fromNode #[]).push ee) := by
        rw [hs', reinsertStep_eq]
      have hsize' : s'.bush.size = s.bush.size := by
        rw [hsbush, Array.size_setD, Array.size_setD]
      have hnodelist : s'.bush.getD node #[] = a.setD k ee := by
        rw [hsbush, getD_setD_ne hfn, hb1node]
      have hwlist : ∀ w, w ≠ node →
          (s'.bush.getD w #[]).toList =
            (s.bush.getD w #[]).toList ++
              (if e0.fromNode = w then [ee] else []) := by
        intro w hw
        by_cases hwf : e0.fromNode = w
        · subst hwf
          rw [hsbush,
            getD_setD_self
              (show e0.fromNode < (s.bush.setD node (a.setD k ee)).size by
                simpa using hfnlt) _ _,
            Array.push_toList, getD_setD_ne (Ne.symm hw), if_pos rfl]
        · rw [hsbush, getD_setD_ne (fun h => hwf h) _ _, getD_setD_ne (Ne.symm hw), if_neg hwf]
          simp
      have hgraph' : s'.graph = swapNetEdge s.graph e0.eid := by
        rw [hs', reinsertStep_eq]
      have hreads : ∀ k' ∈ ks, (s'.bush.getD node #[]).getD k' default = a.getD k' default := by
        intro k' hk'
        rw [hnodelist, getD_setD_ne (fun h => hknd (by rw [h]; exact hk')) _ _]
      obtain ⟨c1, c2, c3, c4, c5, c6, c7, c8, c9⟩ := reinsert_fold_spec node ks s'
        hnd'
        (fun k' hk' => by rw [hreads k' hk']; exact hself k' (by simp [hk']))
        (fun k' hk' => by
          rw [hreads k' hk', hsize']
          exact hfrom k' (by simp [hk']))
        (by rw [hsize']; exact hnode)
      have hmapeq : ks.map (fun k' => (s'.bush.getD node #[]).getD k' default) =
          ks.map (fun k' => a.getD k' default) :=
        List.map_congr_left (fun k' hk' => hreads k' hk')
      rw [List.foldl_cons, ← hs']
      refine ⟨?_, ?_, ?_, ?_, ?_, ?_, ?_, ?_, ?_⟩
      · intro w hw
        rw [c1 w hw, hmapeq, hwlist w hw, List.map_cons, ← he0]
        by_cases hwf : e0.fromNode = w
        · rw [if_pos hwf]
          simp [List.filter_cons, hwf, hee]
        · rw [if_neg hwf]
          simp [List.filter_cons, hwf]
      · rw [c2, hnodelist, Array.size_setD]
      · intro p hp
        rw [c3 p (fun h => hp (by simp [h])), hnodelist,
          getD_setD_ne (fun h => hp (by rw [← h]; simp)) _ _]
      · rw [c4, hmapeq, List.map_cons, List.foldl_cons, hgraph', ← he0]
      · rw [c5, hs', reinsertStep_eq]
      · rw [c6, hs', reinsertStep_eq]
      · rw [c7, hs', reinsertStep_eq]
      · rw [c8, hs', reinsertStep_eq]
      · rw [c9, hsize']

theorem map_range'_eq_map {β : Type} (F : Nat → β) :
    ∀ (n l : Nat) (g : Nat → β) (xs : List Nat), xs.length = n →
      (∀ t, t < n → F (l + t) = g (xs.getD t 0)) →
      (List.range' l n).map F = xs.map g
  | 0, l, g, xs, hlen, _ => by
      cases xs with
      | nil => rfl
      | cons x xs' => simp at hlen
  | n + 1, l, g, xs, hlen, h => by
      cases xs with
      | nil => simp at hlen
      | cons x xs' =>
          rw [List.range'_succ, List.map_cons, List.map_cons]
          congr 1
          · have := h 0 (by omega)
            simpa using this
          · apply map_range'_eq_map F n (l + 1) g xs' (by simpa using hlen)
            intro t ht
            have := h (t + 1) (by omega)
            simp only [List.getD_cons_succ] at this
            rw [← this]
            congr 1
            omega

/-- One group of `applyBushEdgeChanges`: the flagged entries (ascending
in-range indices, no self-loops) leave the node's in-edge list — its new
list plus the flagged edges is a permutation of the old — and each flagged
edge is re-inserted direction-reversed at its former source, in order; the
flagged underlying arcs are endpoint-swapped; nothing else changes. -/
theorem applyGroup_spec (s : Bush) (node : Nat) (idxs : List Nat)
    (hasc : idxs.Chain' (· < ·))
    (hbound : ∀ m ∈ idxs, m < (s.bush.getD node #[]).size)
    (hnode : node < s.bush.size)
    (hself : ∀ m ∈ idxs, ((s.bush.getD node #[]).getD m default).fromNode ≠ node)
    (hfrom : ∀ m ∈ idxs, ((s.bush.getD node #[]).getD m default).fromNode < s.bush.size) :
    (((applyGroup s node idxs).bush.getD node #[]).toList ++
        idxs.map (fun m => (s.bush.getD node #[]).getD m default)).Perm
      ((s.bush.getD node #[]).toList) ∧
    (∀ w, w ≠ node →
      ((applyGroup s node idxs).bush.getD w #[]).toList =
        (s.bush.getD w #[]).toList ++
          ((idxs.map (fun m => (s.bush.getD node #[]).getD m default)).filter
              (fun e => decide (e.fromNode = w))).map
            (fun e => { e with fromNode := node })) ∧
    (applyGroup s node idxs).graph =
      (idxs.map (fun m => (s.bush.getD node #[]).getD m default)).foldl
        (fun gr e => swapNetEdge gr e.eid) s.graph ∧
    (applyGroup s node idxs).sharedNodes = s.sharedNodes ∧
    (applyGroup s node idxs).topologicalOrdering = s.topologicalOrdering ∧
    (applyGroup s node idxs).changes = s.changes ∧
    (applyGroup s node idxs).origin = s.origin ∧
    (applyGroup s node idxs).bush.size = s.bush.size := by
  set a := s.bush.getD node #[] with ha
  set B := swapGo a.size a idxs with hB
  set s1 : Bush := { s with bush := s.bush.setD node B } with hs1
  set ks := List.range' (a.size - idxs.length) (a.size - (a.size - idxs.length)) with hks
  set s2 := ks.foldl (reinsertStep node) s1 with hs2
  have happly : applyGroup s node idxs =
      { s2 with bush := s2.bush.setD node ((s2.bush.getD node #[]).extract 0
        (a.size - idxs.length)) } := rfl
  have hrsz : idxs.length ≤ a.size := by
    cases hid : idxs with
    | nil => simp
    | cons m ms =>
        have := chain_head_bound m ms a.size (hid ▸ hasc) (fun x hx => hbound x (hid ▸ hx))
        simp only [List.length_cons]
        omega
  have hkslen : ks.length = idxs.length := by
    rw [hks, List.length_range']
    omega
  have hBsize : B.size = a.size := swapGo_size _ _ _
  have hs1node : s1.bush.getD node #[] = B := getD_setD_self hnode _ _
  have hs1w : ∀ w, w ≠ node → s1.bush.getD w #[] = s.bush.getD w #[] :=
    fun w hw => getD_setD_ne (Ne.symm hw) _ _
  have hs1size : s1.bush.size = s.bush.size := Array.size_setD _ _ _
  have hksmem : ∀ k ∈ ks, a.size - idxs.length ≤ k ∧ k < a.size := by
    intro k hk
    rw [hks, List.mem_range'_1] at hk
    omega
  have hreadB : ∀ k ∈ ks, B.getD k default =
      a.getD (idxs.getD (k - (a.size - idxs.length)) 0) default := by
    intro k hk
    obtain ⟨hk1, hk2⟩ := hksmem k hk
    have ht : k - (a.size - idxs.length) < idxs.length := by omega
    have := swapGo_getD_tail a.size a rfl idxs hasc (fun x hx => hbound x hx)
      (k - (a.size - idxs.length)) ht
    rw [← this]
    congr 1
    omega
  have hidxmem : ∀ k ∈ ks, idxs.getD (k - (a.size - idxs.length)) 0 ∈ idxs := by
    intro k hk
    obtain ⟨hk1, hk2⟩ := hksmem k hk
    have ht : k - (a.size - idxs.length) < idxs.length := by omega
    rw [List.getD_eq_getElem _ _ ht]
    exact List.getElem_mem ht
  obtain ⟨r1, r2, r3, r4, r5, r6, r7, r8, r9⟩ := reinsert_fold_spec node ks s1
    (by rw [hks]; exact List.nodup_range' _ _)
    (fun k hk => by
      rw [hs1node, hreadB k hk]
      exact hself _ (hidxmem k hk))
    (fun k hk => by
      rw [hs1node, hreadB k hk, hs1size]
      exact hfrom _ (hidxmem k hk))
    (by rw [hs1size]; exact hnode)
  rw [hs1node] at r1 r2 r3 r4
  have hfs : ks.map (fun k => B.getD k default) =
      idxs.map (fun m => a.getD m default) := by
    rw [hks]
    apply map_range'_eq_map (fun k => B.getD k default) _ _ _ idxs (by omega)
    intro t ht
    have ht' : t < idxs.length := by omega
    exact swapGo_getD_tail a.size a rfl idxs hasc (fun x hx => hbound x hx) t ht'
  have hs2nodesize : (s2.bush.getD node #[]).size = a.size := by
    rw [r2, hBsize]
  have hnode2 : node < s2.bush.size := by rw [r9, hs1size]; exact hnode
  have hfinalnode : (applyGroup s node idxs).bush.getD node #[] =
      (s2.bush.getD node #[]).extract 0 (a.size - idxs.length) := by
    rw [happly]
    exact getD_setD_self hnode2 _ _
  have hfinalw : ∀ w, w ≠ node →
      (applyGroup s node idxs).bush.getD w #[] = s2.bush.getD w #[] := by
    intro w hw
    rw [happly]
    exact getD_setD_ne (Ne.symm hw) _ _
  have htake : ((s2.bush.getD node #[]).extract 0 (a.size - idxs.length)).toList =
      B.toList.take (a.size - idxs.length) := by
    rw [Array.toList_extract]
    simp only [Nat.sub_zero, List.drop_zero]
    apply List.ext_getElem
    · rw [List.length_take, List.length_take,
        @Array.length_toList _ (s2.bush.getD node #[]), @Array.length_toList _ B,
        hs2nodesize, hBsize]
    · intro p h1 h2
      rw [List.length_take, @Array.length_toList _ (s2.bush.getD node #[]), hs2nodesize] at h1
      have hp : p < a.size - idxs.length := lt_min_iff.1 h1 |>.1
      have hpnotin : p ∉ ks := by
        intro hk
        exact absurd (hksmem p hk).1 (by omega)
      have hps2 : p < (s2.bush.getD node #[]).size := by rw [hs2nodesize]; omega
      have hpB : p < B.size := by rw [hBsize]; omega
      rw [List.getElem_take, List.getElem_take, Array.getElem_toList hps2,
        Array.getElem_toList hpB, getElem_eq_getD hps2 default, getElem_eq_getD hpB default,
        r3 p hpnotin]
  have hdrop : B.toList.drop (a.size - idxs.length) = idxs.map (fun m => a.getD m default) := by
    apply List.ext_getElem
    · rw [List.length_drop, Array.length_toList, hBsize, List.length_map]
      omega
    · intro t h1 h2
      rw [List.length_drop, Array.length_toList, hBsize] at h1
      rw [List.getElem_drop, List.getElem_map]
      have hlt : a.size - idxs.length + t < B.size := by rw [hBsize]; omega
      have ht : t < idxs.length := by omega
      rw [Array.getElem_toList hlt, getElem_eq_getD hlt default]
      have := swapGo_getD_tail a.size a rfl idxs hasc (fun x hx => hbound x hx) t ht
      rw [this, List.getD_eq_getElem _ _ ht]
  refine ⟨?_, ?_, ?_, ?_, ?_, ?_, ?_, ?_⟩
  · rw [hfinalnode, htake]
    have hsplit : B.toList.take (a.size - idxs.length) ++ idxs.map (fun m => a.getD m default)
        = B.toList := by
      rw [← hdrop, List.take_append_drop]
    rw [hsplit]
    exact swapGo_perm a.size a rfl idxs (fun x hx => hbound x hx)
  · intro w hw
    rw [hfinalw w hw, r1 w hw, hfs, hs1w w hw]
  · rw [happly]
    show s2.graph = _
    rw [r4, hfs]
  · rw [happly]
    show s2.sharedNodes = _
    rw [r5]
  · rw [happly]
    show s2.topologicalOrdering = _
    rw [r6]
  · rw [happly]
    show s2.changes = _
    rw [r7]
  · rw [happly]
    show s2.origin = _
    rw [r8]
  · rw [happly]
    show (s2.bush.setD node _).size = _
    rw [Array.size_setD, r9, hs1size]

theorem foldl_swapE_map : ∀ (l : List BushEdge) (g : Array NetEdge),
    l.foldl (fun gr e => swapNetEdge gr e.eid) g
      = (l.map (fun e => e.eid)).foldl swapNetEdge g
  | [], _ => rfl
  | e :: l, g => by
      rw [List.foldl_cons, List.map_cons, List.foldl_cons, foldl_swapE_map l]

theorem swapNetEdge_eq (g : Array NetEdge) (i : Nat) :
    swapNetEdge g i = g.setD i (swapsOf (g.getD i default)) := rfl

theorem swapNet_foldl_getD : ∀ (es : List Nat) (g : Array NetEdge), es.Nodup →
    (∀ x ∈ es, x < g.size) → ∀ i, i < g.size →
    (es.foldl swapNetEdge g).getD i default =
      if i ∈ es then swapsOf (g.getD i default) else g.getD i default
  | [], _, _, _, _, _ => by simp
  | e :: es, g, hnd, hlt, i, hi => by
      have he : e < g.size := hlt e (by simp)
      have hsz : (swapNetEdge g e).size = g.size := by
        rw [swapNetEdge_eq, Array.size_setD]
      have henotin : e ∉ es := (List.nodup_cons.1 hnd).1
      rw [List.foldl_cons,
        swapNet_foldl_getD es (swapNetEdge g e) (List.nodup_cons.1 hnd).2
          (fun x hx => by rw [hsz]; exact hlt x (List.mem_cons_of_mem e hx)) i
          (by rw [hsz]; exact hi)]
      by_cases hie : i = e
      · subst hie
        rw [if_neg henotin, if_pos (List.mem_cons_self i es), swapNetEdge_eq,
          getD_setD_self he]
      · have hread : (swapNetEdge g e).getD i default = g.getD i default := by
          rw [swapNetEdge_eq]
          exact getD_setD_ne (fun h => hie h.symm) _ _
        by_cases hies : i ∈ es
        · rw [if_pos hies, if_pos (List.mem_cons_of_mem e hies), hread]
        · rw [if_neg hies, if_neg (by simp [List.mem_cons, hie, hies]), hread]

theorem flagOf_nil (s : Bush) (w : Nat) : flagOf s [] w = [] := rfl

theorem revOf_nil (s : Bush) (w : Nat) : revOf s [] w = [] := rfl

theorem flagOf_cons (s : Bush) (g : Nat × List Nat) (gs : List (Nat × List Nat)) (w : Nat) :
    flagOf s (g :: gs) w =
      (if g.1 = w then g.2.map (fun i => (s.bush.getD g.1 #[]).getD i default) else [])
        ++ flagOf s gs w := rfl

theorem revOf_cons (s : Bush) (g : Nat × List Nat) (gs : List (Nat × List Nat)) (w : Nat) :
    revOf s (g :: gs) w =
      ((g.2.map (fun i => (s.bush.getD g.1 #[]).getD i default)).filter
          (fun e => decide (e.fromNode = w))).map (fun e => { e with fromNode := g.1 })
        ++ revOf s gs w := rfl

theorem flagAll_cons (s : Bush) (g : Nat × List Nat) (gs : List (Nat × List Nat)) :
    flagAll s (g :: gs) =
      g.2.map (fun i => (s.bush.getD g.1 #[]).getD i default) ++ flagAll s gs := rfl

theorem getD_of_toList_append {a b : Array BushEdge} {app : List BushEdge}
    (h : a.toList = b.toList ++ app) {m : Nat} (hm : m < b.size) :
    a.getD m default = b.getD m default := by
  rw [getD_toList, getD_toList, h]
  exact List.getD_append _ _ _ m (by rw [Array.length_toList]; exact hm)

theorem size_of_toList_append {a b : Array BushEdge} {app : List BushEdge}
    (h : a.toList = b.toList ++ app) : a.size = b.size + app.length := by
  rw [← Array.length_toList, h, List.length_append, Array.length_toList]

theorem foldGroups_spec (s : Bush) :
    ∀ (gs : List (Nat × List Nat)) (t : Bush),
      (gs.map (fun g => g.1)).Nodup →
      (∀ g ∈ gs, g.2.Chain' (· < ·)) →
      (∀ g ∈ gs, g.1 < s.bush.size) →
      (∀ g ∈ gs, ∀ m ∈ g.2, m < (s.bush.getD g.1 #[]).size) →
      (∀ g ∈ gs, ∀ m ∈ g.2, ((s.bush.getD g.1 #[]).getD m default).fromNode ≠ g.1) →
      (∀ g ∈ gs, ∀ m ∈ g.2, ((s.bush.getD g.1 #[]).getD m default).fromNode < s.bush.size) →
      t.bush.size = s.bush.size →
      (∀ g ∈ gs, ∃ app, (t.bush.getD g.1 #[]).toList = (s.bush.getD g.1 #[]).toList ++ app) →
      (∀ w, (((gs.foldl (fun st g => applyGroup st g.1 g.2) t).bush.getD w #[]).toList
          ++ flagOf s gs w).Perm ((t.bush.getD w #[]).toList ++ revOf s gs w)) ∧
      (gs.foldl (fun st g => applyGroup st g.1 g.2) t).graph =
        (flagAll s gs).foldl (fun gr e => swapNetEdge gr e.eid) t.graph ∧
      (gs.foldl (fun st g => applyGroup st g.1 g.2) t).sharedNodes = t.sharedNodes ∧
      (gs.foldl (fun st g => applyGroup st g.1 g.2) t).topologicalOrdering
        = t.topologicalOrdering ∧
      (gs.foldl (fun st g => applyGroup st g.1 g.2) t).changes = t.changes ∧
      (gs.foldl (fun st g => applyGroup st g.1 g.2) t).origin = t.origin ∧
      (gs.foldl (fun st g => applyGroup st g.1 g.2) t).bush.size = t.bush.size
  | [], t, _, _, _, _, _, _, _, _ =>
      ⟨fun w => by simp [flagOf_nil, revOf_nil], rfl, rfl, rfl, rfl, rfl, rfl⟩
  | g :: rest, t, hnd, hchain, hnlt, hbnd, hself, hfrom, htsize, happ => by
      have hgmem : g ∈ g :: rest := List.mem_cons_self g rest
      obtain ⟨app0, happ0⟩ := happ g hgmem
      have hsz0 : (t.bush.getD g.1 #[]).size = (s.bush.getD g.1 #[]).size + app0.length :=
        size_of_toList_append happ0
      have hval : ∀ m ∈ g.2, (t.bush.getD g.1 #[]).getD m default
          = (s.bush.getD g.1 #[]).getD m default :=
        fun m hm => getD_of_toList_append happ0 (hbnd g hgmem m hm)
      obtain ⟨a1, a2, a3, a4, a5, a6, a7, a8⟩ :=
        applyGroup_spec t g.1 g.2 (hchain g hgmem)
          (fun m hm => by
            rw [hsz0]
            exact Nat.lt_of_lt_of_le (hbnd g hgmem m hm) (Nat.le_add_right _ _))
          (by rw [htsize]; exact hnlt g hgmem)
          (fun m hm => by rw [hval m hm]; exact hself g hgmem m hm)
          (fun m hm => by rw [hval m hm, htsize]; exact hfrom g hgmem m hm)
      have hmapval : g.2.map (fun m => (t.bush.getD g.1 #[]).getD m default)
          = g.2.map (fun m => (s.bush.getD g.1 #[]).getD m default) :=
        List.map_congr_left hval
      have hnd2 : (g.1 :: rest.map (fun x => x.1)).Nodup := hnd
      have hheadnotin : g.1 ∉ rest.map (fun x => x.1) := (List.nodup_cons.1 hnd2).1
      have hrestnd : (rest.map (fun g => g.1)).Nodup := (List.nodup_cons.1 hnd2).2
      have hne1 : ∀ gp ∈ rest, gp.1 ≠ g.1 := by
        intro gp hgp heq
        exact hheadnotin (by rw [← heq]; exact List.mem_map_of_mem _ hgp)
      obtain ⟨p1, p2, p3, p4, p5, p6, p7⟩ :=
        foldGroups_spec s rest (applyGroup t g.1 g.2)
          hrestnd
          (fun gp hgp => hchain gp (List.mem_cons_of_mem g hgp))
          (fun gp hgp => hnlt gp (List.mem_cons_of_mem g hgp))
          (fun gp hgp => hbnd gp (List.mem_cons_of_mem g hgp))
          (fun gp hgp => hself gp (List.mem_cons_of_mem g hgp))
          (fun gp hgp => hfrom gp (List.mem_cons_of_mem g hgp))
          (by rw [a8, htsize])
          (fun gp hgp => by
            obtain ⟨b0, hb0⟩ := happ gp (List.mem_cons_of_mem g hgp)
            refine ⟨b0 ++ ((g.2.map (fun m => (s.bush.getD g.1 #[]).getD m default)).filter
                (fun e => decide (e.fromNode = gp.1))).map
                  (fun e => { e with fromNode := g.1 }), ?_⟩
            rw [a2 gp.1 (hne1 gp hgp), hmapval, hb0, List.append_assoc])
      simp only [List.foldl_cons]
      refine ⟨?_, ?_, ?_, ?_, ?_, ?_, ?_⟩
      · intro w
        rw [flagOf_cons, revOf_cons]
        by_cases hw : g.1 = w
        · subst hw
          rw [if_pos rfl]
          have hfilnil : (g.2.map (fun m => (s.bush.getD g.1 #[]).getD m default)).filter
              (fun e => decide (e.fromNode = g.1)) = [] := by
            rw [List.filter_eq_nil_iff]
            intro e hememb
            obtain ⟨m, hm, rfl⟩ := List.mem_map.1 hememb
            simp only [decide_eq_true_eq]
            exact hself g hgmem m hm
          rw [hfilnil, List.map_nil, List.nil_append]
          have ha1 : (((applyGroup t g.1 g.2).bush.getD g.1 #[]).toList
              ++ g.2.map (fun m => (s.bush.getD g.1 #[]).getD m default)).Perm
              ((t.bush.getD g.1 #[]).toList) := by
            have h0 := a1
            rw [hmapval] at h0
            exact h0
          refine List.Perm.trans (List.Perm.append_left _ List.perm_append_comm) ?_
          rw [← List.append_assoc]
          refine List.Perm.trans ((p1 g.1).append_right _) ?_
          rw [List.append_assoc]
          refine List.Perm.trans (List.Perm.append_left _ List.perm_append_comm) ?_
          rw [← List.append_assoc]
          exact ha1.append_right _
        · rw [if_neg hw, List.nil_append]
          have ht1w : ((applyGroup t g.1 g.2).bush.getD w #[]).toList
              = (t.bush.getD w #[]).toList
                ++ ((g.2.map (fun m => (s.bush.getD g.1 #[]).getD m default)).filter
                    (fun e => decide (e.fromNode = w))).map
                  (fun e => { e with fromNode := g.1 }) := by
            have h0 := a2 w (fun h => hw h.symm)
            rw [hmapval] at h0
            exact h0
          have h1 := p1 w
          rw [ht1w, List.append_assoc] at h1
          exact h1
      · rw [p2, a3, hmapval, flagAll_cons, List.foldl_append]
      · rw [p3, a4]
      · rw [p4, a5]
      · rw [p5, a6]
      · rw [p6, a7]
      · rw [p7, a8]

theorem pairwise_le_before (key : Nat → Int) (l : List Nat)
    (hp : l.Pairwise (fun u v => key u ≤ key v)) (u v : Nat)
    (hu : u ∈ l) (hv : v ∈ l) (hk : key u < key v) : listBefore l u v := by
  refine ⟨hu, hv, ?_⟩
  by_contra hnlt
  rw [Nat.not_lt] at hnlt
  have hul : List.indexOf u l < l.length := List.indexOf_lt_length.2 hu
  have hvl : List.indexOf v l < l.length := List.indexOf_lt_length.2 hv
  rcases Nat.lt_or_ge (List.indexOf v l) (List.indexOf u l) with hlt | hge
  · have h2 := List.pairwise_iff_getElem.1 hp _ _ hvl hul hlt
    rw [List.getElem_indexOf hvl, List.getElem_indexOf hul] at h2
    exact absurd hk (not_lt.2 h2)
  · have heq : List.indexOf v l = List.indexOf u l := le_antisymm hnlt hge
    have huv : v = u := (List.indexOf_inj hv hu).1 heq
    subst huv
    exact absurd hk (lt_irrefl _)

theorem topoSort_perm (s : Bush) :
    ((topologicalSort s).topologicalOrdering).Perm s.topologicalOrdering := by
  have hnew : (topologicalSort s).topologicalOrdering =
      (stableSortKeys (s.topologicalOrdering.map
        (fun i => ((s.sharedNodes.getD i default).maxDist, i)))).map (·.2) := rfl
  rw [hnew]
  have h1 := (stableSortKeys_perm (s.topologicalOrdering.map
      (fun i => ((s.sharedNodes.getD i default).maxDist, i)))).map (·.2)
  have h2 : (s.topologicalOrdering.map
      (fun i => ((s.sharedNodes.getD i default).maxDist, i))).map (·.2)
        = s.topologicalOrdering := by
    rw [List.map_map]
    exact List.map_id _
  rwa [h2] at h1

theorem topoSort_sorted (s : Bush) :
    List.Pairwise (fun u v => (s.sharedNodes.getD u default).maxDist ≤
      (s.sharedNodes.getD v default).maxDist) (topologicalSort s).topologicalOrdering := by
  have hnew : (topologicalSort s).topologicalOrdering =
      (stableSortKeys (s.topologicalOrdering.map
        (fun i => ((s.sharedNodes.getD i default).maxDist, i)))).map (·.2) := rfl
  rw [hnew, List.pairwise_map]
  refine List.Pairwise.imp_of_mem ?_
    (stableSortKeys_pairwise (s.topologicalOrdering.map
      (fun i => ((s.sharedNodes.getD i default).maxDist, i))))
  intro a b ha hb hle
  have hfa : a.1 = (s.sharedNodes.getD a.2 default).maxDist := by
    have h0 := (stableSortKeys_perm _).mem_iff.1 ha
    obtain ⟨i, _, hi⟩ := List.mem_map.1 h0
    rw [← hi]
  have hfb : b.1 = (s.sharedNodes.getD b.2 default).maxDist := by
    have h0 := (stableSortKeys_perm _).mem_iff.1 hb
    obtain ⟨i, _, hi⟩ := List.mem_map.1 h0
    rw [← hi]
  show (s.sharedNodes.getD a.2 default).maxDist ≤ (s.sharedNodes.getD b.2 default).maxDist
  rw [← hfa, ← hfb]
  exact hle

/-- C5: `updateEdges` returns `true` exactly when changes were pending and
clears the pending list; every flagged in-edge leaves its node's in-edge
list and reappears, direction-reversed, in its former source's list (a
permutation identity per node); every flagged underlying arc is
endpoint-swapped and every other arc untouched; node records are
untouched; and when changes were pending the ordering is re-sorted: a
permutation of the old one, non-decreasing in max distance, placing each
in-edge's source strictly before its node whenever the max distances
strictly orient the restructured bush. -/
theorem updateEdges_spec (s : Bush)
    (hnd : ((groupChanges s.changes).map (fun g => g.1)).Nodup)
    (hchain : ∀ g ∈ groupChanges s.changes, g.2.Pairwise (· < ·))
    (hnodeslt : ∀ g ∈ groupChanges s.changes, g.1 < s.bush.size)
    (hbnd : ∀ g ∈ groupChanges s.changes, ∀ m ∈ g.2, m < (s.bush.getD g.1 #[]).size)
    (hself : ∀ g ∈ groupChanges s.changes, ∀ m ∈ g.2,
      ((s.bush.getD g.1 #[]).getD m default).fromNode ≠ g.1)
    (hfrom : ∀ g ∈ groupChanges s.changes, ∀ m ∈ g.2,
      ((s.bush.getD g.1 #[]).getD m default).fromNode < s.bush.size)
    (heid : ((allFlagged s).map (fun e => e.eid)).Nodup)
    (heidlt : ∀ e ∈ allFlagged s, e.eid < s.graph.size)
    (hord : ∀ v, v < s.bush.size → v ∈ s.topologicalOrdering) :
    ((updateEdges s).1 = true ↔ s.changes ≠ []) ∧
    (updateEdges s).2.changes = [] ∧
    (∀ w, (((updateEdges s).2.bush.getD w #[]).toList ++ flaggedAt s w).Perm
      ((s.bush.getD w #[]).toList ++ reversedTo s w)) ∧
    (∀ i, i < s.graph.size → (updateEdges s).2.graph.getD i default =
      if i ∈ (allFlagged s).map (fun e => e.eid) then swapsOf (s.graph.getD i default)
      else s.graph.getD i default) ∧
    (updateEdges s).2.sharedNodes = s.sharedNodes ∧
    (s.changes ≠ [] → ((updateEdges s).2.topologicalOrdering).Perm s.topologicalOrdering) ∧
    (s.changes ≠ [] → List.Pairwise
      (fun u v => (s.sharedNodes.getD u default).maxDist ≤
        (s.sharedNodes.getD v default).maxDist)
      (updateEdges s).2.topologicalOrdering) ∧
    (s.changes ≠ [] → ∀ w e, w < s.bush.size →
      e ∈ ((updateEdges s).2.bush.getD w #[]).toList → e.fromNode < s.bush.size →
      (s.sharedNodes.getD e.fromNode default).maxDist
        < (s.sharedNodes.getD w default).maxDist →
      listBefore (updateEdges s).2.topologicalOrdering e.fromNode w) := by
  by_cases hc : s.changes = []
  · have hupd : updateEdges s = (false, s) := by
      rw [updateEdges, if_pos (by simp [List.isEmpty_iff, hc])]
    have hgc : groupChanges s.changes = [] := by rw [hc]; rfl
    rw [hupd]
    refine ⟨by simp [hc], hc, ?_, ?_, rfl, fun h => absurd hc h, fun h => absurd hc h,
      fun h => absurd hc h⟩
    · intro w
      simp [flaggedAt, reversedTo, hgc, flagOf_nil, revOf_nil]
    · intro i _
      have hgc2 : allFlagged s = [] := by simp [allFlagged, flagAll, hgc]
      rw [hgc2, List.map_nil, if_neg (List.not_mem_nil i)]
  · have hemp : ¬(s.changes.isEmpty = true) := by simp [List.isEmpty_iff, hc]
    have hupd : updateEdges s = (true,
        { topologicalSort (applyBushEdgeChanges s) with changes := [] }) := by
      rw [updateEdges, if_neg hemp]
    obtain ⟨p1, p2, p3, p4, p5, p6, p7⟩ :=
      foldGroups_spec s (groupChanges s.changes) s
        hnd
        (fun g hg => (List.chain'_iff_pairwise).2 (hchain g hg))
        hnodeslt hbnd hself hfrom rfl
        (fun g _ => ⟨[], (List.append_nil _).symm⟩)
    have hAdef : applyBushEdgeChanges s
        = (groupChanges s.changes).foldl (fun st g => applyGroup st g.1 g.2) s := rfl
    rw [← hAdef] at p1 p2 p3 p4 p5 p6 p7
    have hbushF : (updateEdges s).2.bush = (applyBushEdgeChanges s).bush := by
      rw [hupd]
      rfl
    have hgraphF : (updateEdges s).2.graph = (applyBushEdgeChanges s).graph := by
      rw [hupd]
      rfl
    have hsharedF : (updateEdges s).2.sharedNodes = (applyBushEdgeChanges s).sharedNodes := by
      rw [hupd]
      rfl
    have hordF : (updateEdges s).2.topologicalOrdering
        = (topologicalSort (applyBushEdgeChanges s)).topologicalOrdering := by
      rw [hupd]
    have hchangesF : (updateEdges s).2.changes = [] := by rw [hupd]
    have hsortedF : List.Pairwise
        (fun u v => (s.sharedNodes.getD u default).maxDist ≤
          (s.sharedNodes.getD v default).maxDist)
        (topologicalSort (applyBushEdgeChanges s)).topologicalOrdering := by
      have h2 := topoSort_sorted (applyBushEdgeChanges s)
      rw [p3] at h2
      exact h2
    have hpermF : ((topologicalSort (applyBushEdgeChanges s)).topologicalOrdering).Perm
        s.topologicalOrdering := by
      have h1 := topoSort_perm (applyBushEdgeChanges s)
      rw [p4] at h1
      exact h1
    refine ⟨⟨fun _ => hc, fun _ => by rw [hupd]⟩, hchangesF, ?_, ?_, ?_, ?_, ?_, ?_⟩
    · intro w
      rw [hbushF]
      exact p1 w
    · intro i hi
      rw [hgraphF, p2, foldl_swapE_map]
      have hall : allFlagged s = flagAll s (groupChanges s.changes) := rfl
      rw [← hall]
      exact swapNet_foldl_getD ((allFlagged s).map (fun e => e.eid)) s.graph heid
        (fun x hx => by
          obtain ⟨e, he, hxe⟩ := List.mem_map.1 hx
          rw [← hxe]
          exact heidlt e he) i hi
    · rw [hsharedF, p3]
    · intro _
      rw [hordF]
      exact hpermF
    · intro _
      rw [hordF]
      exact hsortedF
    · intro _ w e hw _ hflt hkey
      rw [hordF]
      refine pairwise_le_before (fun i => (s.sharedNodes.getD i default).maxDist)
        ((topologicalSort (applyBushEdgeChanges s)).topologicalOrdering) hsortedF
        e.fromNode w ?_ ?_ hkey
      · exact hpermF.mem_iff.2 (hord e.fromNode hflt)
      · exact hpermF.mem_iff.2 (hord w hw)

/-- Witness for C5 on `pend4` (bush in-edges ⟨0,0,7⟩, ⟨1,1,8⟩, ⟨2,3,9⟩ at
node 2, changes flagging indices 0 and 2): the call reports `true`, clears
the list, and the per-node permutation identities hold at nodes 0 and 2. -/
theorem updateEdges_spec_witness :
    ((updateEdges pend4).1 = true ↔ pend4.changes ≠ []) ∧
    (updateEdges pend4).2.changes = [] ∧
    (((updateEdges pend4).2.bush.getD 0 #[]).toList ++ flaggedAt pend4 0).Perm
      ((pend4.bush.getD 0 #[]).toList ++ reversedTo pend4 0) ∧
    (((updateEdges pend4).2.bush.getD 2 #[]).toList ++ flaggedAt pend4 2).Perm
      ((pend4.bush.getD 2 #[]).toList ++ reversedTo pend4 2) := by
  obtain ⟨h1, h2, h3, _⟩ := updateEdges_spec pend4 (by decide) (by decide) (by decide)
    (by decide) (by decide) (by decide) (by decide) (by decide) (by decide)
  exact ⟨h1, h2, h3 0, h3 2⟩

end EqSolver
